import Mathlib

/-!
Verification of the raw-data container logic of pet-rd-tools.

This file gives a shallow embedding, over `List Char` byte strings, of the
string- and state-manipulating core of the repository:

* `nmtools::GetTagInfo`            (lib/nmtools/Common.hpp)
* `nmtools::IMMR::ReadHeader`, `ExtractHeader`, `ModifyHeader`,
  `CleanUpLineEncoding`, `CheckForSiemensBFFile` (lib/nmtools/MMR.hpp)
* `nmtools::MMR32BitList::IsValid`, `ExtractData` (lib/nmtools/MMR.hpp)
* `nmtools::MMRSino::IsValid`      (lib/nmtools/MMR.hpp)
* `nmtools::MMRNorm::ModifyHeader` (lib/nmtools/MMR.hpp)
* `nmtools::ReadAsSiemensPTD`      (lib/Validate.hpp)
* `nmtools::GEPETFactory::GetFileType`, `Create` (GEPET.hpp)

External collaborators (the GDCM DICOM toolkit, the filesystem, stream
opening) are modelled as explicit inputs: a DICOM tag read is an
`Option Bytes` (`none` = the read reported failure), the filesystem is an
association list from paths to file contents, and the success of opening an
output stream is a boolean oracle.  A C++ function that can exit only by
throwing an uncaught exception is modelled with an `Option` result whose
`none` case marks the throw.

Machine-integer caveats are noted at each definition; `uint64` wrap-around
is written out with `% 2 ^ 64` exactly where the source can reach it.
-/

namespace PetRdTools

/-- Byte strings of the C++ sources, modelled as lists of characters
(each character standing for one byte). -/

abbrev Bytes := List Char

/-- Boolean test that `p` is a prefix of `s` (the comparison
`tmpStr == target`, `std::equal`-style). -/

def listStarts : Bytes → Bytes → Bool
  | [], _ => true
  | _ :: _, [] => false
  | a :: p, b :: s => if a = b then listStarts p s else false

/-- `std::string::find(pat)`: index of the first occurrence of `pat` in `s`,
`none` standing for `npos`. -/

def findSub : Bytes → Bytes → Option Nat
  | [], pat => if listStarts pat [] then some 0 else none
  | s@(_ :: t), pat =>
    if listStarts pat s then some 0
    else (findSub t pat).map (· + 1)

/-- `s.find(pat) != npos`. -/
def hasSub (s pat : Bytes) : Bool := (findSub s pat).isSome

/-- `pat` occurs as a contiguous substring of `s`. -/
def Occurs (pat s : Bytes) : Prop := ∃ a b, s = a ++ pat ++ b

/-- `line.substr(0, line.find("\n"))`: everything up to (excluding) the first
newline, or the whole string when there is none. -/
def takeUntilNl (s : Bytes) : Bytes := s.takeWhile (· != '\n')

/-- `line.substr(0, std::min(line.find("\n"), line.find("\r")))`: everything up
to the first newline or carriage return, whichever comes first. -/

def takeLineNR (s : Bytes) : Bytes := s.takeWhile (fun ch => ch != '\n' && ch != '\r')

/-- First maximal run of decimal digits in `s` (the first match of the
`boost::regex` pattern `[0-9]+`), or `none` when `s` has no digit. -/

def firstDigitRun : Bytes → Option Bytes
  | [] => none
  | c :: t => if c.isDigit then some (c :: t.takeWhile Char.isDigit) else firstDigitRun t

/-- Decimal value of a digit string (`boost::lexical_cast` on the matched
digits; the model is unbounded — the cast itself would throw above
`2 ^ 64 - 1`, which callers account for where it matters). -/

def digitsToNat (ds : Bytes) : Nat := ds.foldl (fun a c => a * 10 + (c.toNat - 48)) 0

/-- `boost::filesystem::path::filename()` for an ordinary slash-separated
path: the part after the last `/` (the whole path when there is none). -/

def lastComponent (p : Bytes) : Bytes := (p.reverse.takeWhile (· != '/')).reverse

/-- `boost::filesystem::path::replace_extension(".bf")` for an ordinary path:
drop a trailing `.xyz` extension of the last component, then append `.bf`. -/

def replaceExtBf (p : Bytes) : Bytes :=
  let compRev := p.reverse.takeWhile (· != '/')
  let dirRev := p.reverse.drop compRev.length
  let stemRev := if compRev.contains '.' then (compRev.dropWhile (· != '.')).drop 1 else compRev
  (('.' :: stemRev) ++ dirRev).reverse ++ ['b', 'f']

/-- The filesystem, as an association list from paths to file contents.
`lookupFs fs p = none` models "no file at `p`" (`exists()` false / `fopen`
fails); writing a file prepends a binding. -/

abbrev Fs := List (Bytes × Bytes)

def lookupFs : Fs → Bytes → Option Bytes
  | [], _ => none
  | (q, v) :: t, p => if q = p then some v else lookupFs t p

def insertFs (fs : Fs) (p v : Bytes) : Fs := (p, v) :: fs

/-- Literal markers and header labels appearing in the sources. -/
def sv10 : Bytes := "SV10".toList

def dicm : Bytes := "DICM".toList

def interfileMark : Bytes := "!INTERFILE".toList

def commentMark : Bytes := "%comment".toList

def wordCountLabel : Bytes := "%total listmode word counts".toList

def nameOfDataFileLabel : Bytes := "name of data file".toList

def dataSetLabel : Bytes := "%data set [1]:=\x7b0,,".toList

def loadedSentinel : Bytes := "Loaded:".toList

def crlf : Bytes := ['\r', '\n']

/-! ### Line splitting and `IMMR::CleanUpLineEncoding` (MMR.hpp 773-805) -/

/-- All segments of `s` delimited by `'\n'` (the delimiter is consumed);
a trailing segment is always present, empty when `s` ends in `'\n'`. -/

def splitNl : Bytes → List Bytes
  | [] => [[]]
  | c :: t =>
    if c = '\n' then [] :: splitNl t
    else (c :: (splitNl t).headI) :: (splitNl t).tail

/-- Drop the final segment when it is empty: the sequence of strings
produced by the `while (std::getline(ss, line))` loop. -/
def dropLastIfEmpty : List Bytes → List Bytes
  | [] => []
  | [l] => if l = [] then [] else [l]
  | l :: ls => l :: dropLastIfEmpty ls

/-- The lines read by `std::getline` from `s`. -/
def getlines (s : Bytes) : List Bytes := dropLastIfEmpty (splitNl s)

/-- `pos = line.find("\r\r"); if found line.replace(pos, 1, "")`: remove one
character at the first occurrence of a doubled carriage return. -/

def fixRR (l : Bytes) : Bytes :=
  match findSub l ['\r', '\r'] with
  | none => l
  | some i => l.take i ++ l.drop (i + 1)

/-- Per-line processing of `CleanUpLineEncoding`: fix a doubled CR, then
re-terminate with `"\n"` when a CR is present somewhere in the line and
with `"\r\n"` otherwise. -/

def cleanLine (l : Bytes) : Bytes :=
  let l2 := fixRR l
  if l2.contains '\r' then l2 ++ ['\n'] else l2 ++ crlf

def catList : List Bytes → Bytes
  | [] => []
  | l :: ls => l ++ catList ls

/-- `IMMR::CleanUpLineEncoding` (MMR.hpp 773-805): process each line read by
`getline`, then unconditionally append a final `"\r\n"`. -/

def IMMR.CleanUpLineEncoding (s : Bytes) : Bytes :=
  catList ((getlines s).map cleanLine) ++ crlf

/-! ### `GetTagInfo` (lib/nmtools/Common.hpp 47-94) -/

/-- The state of a `gdcm::DataElement` for one tag lookup, as seen by
`GetTagInfo`: `byteValue` is the element's byte-value pointer (`none` =
`NULL`), `sfString` is what `gdcm::StringFilter::ToString` would produce
for the tag, `printed` is what streaming `element.GetValue()` would print,
and `allocFail` marks a `std::bad_alloc` raised during the `try` block. -/

structure TagElement where
  byteValue : Option Bytes
  sfString : Bytes
  printed : Bytes
  allocFail : Bool

/-- `nmtools::GetTagInfo` (Common.hpp 47-94).  Returns `none` exactly when
the function returns `false` (only the `bad_alloc` handler does), otherwise
`some dst`.  Note the `else return false;` of the null-byte-value branch is
commented out in the source, so a `NULL` byte value leaves `dst` empty and
falls into the `element.GetValue()` fallback, whose result is kept unless
it begins with the `"Loaded:"` sentinel. -/

def GetTagInfo (e : TagElement) : Option Bytes :=
  if e.allocFail then none
  else
    let dst : Bytes :=
      match e.byteValue with
      | some _ => e.sfString
      | none => []
    let dst2 :=
      if dst.length = 0 then
        (if listStarts loadedSentinel e.printed then dst else e.printed)
      else dst
    some dst2

/-! ### Siemens mMR header resolution (MMR.hpp 180-271) -/

/-- `IMMR::ReadHeader` (MMR.hpp 180-217).  `primary` / `secondary` are the
outcomes of `GetTagInfo` on tags (0029,1010) / (0029,1110) (`none` = the
call returned `false`).  A failed primary read only logs a warning and
continues with an empty string; the secondary tag is consulted when the
primary text contains `"SV10"` or is empty; the function succeeds iff the
resolved header is non-empty. -/

def IMMR.ReadHeader (primary secondary : Option Bytes) : Option Bytes :=
  let tmp := primary.getD []
  if hasSub tmp sv10 || tmp.length == 0 then
    match secondary with
    | none => none
    | some h => if h.length > 0 then some h else none
  else
    if tmp.length > 0 then some tmp else none

/-- The header-resolution prologue of `IMMR::ExtractHeader` (MMR.hpp
220-246): unlike `ReadHeader`, a failed primary read aborts, and the
secondary tag is consulted only on `"SV10"` — not when the primary text is
empty. -/

def IMMR.ExtractHeaderResolve (primary secondary : Option Bytes) : Option Bytes :=
  match primary with
  | none => none
  | some tmp => if hasSub tmp sv10 then secondary else some tmp

/-- `IMMR::ExtractHeader` (MMR.hpp 220-271): resolve the header, refuse when
`dst` exists, then write the resolved bytes; `openOk` is the outcome of
opening the output stream. -/

def IMMR.ExtractHeader (primary secondary : Option Bytes) (dst : Bytes) (fs : Fs)
    (openOk : Bool) : Bool × Fs :=
  match IMMR.ExtractHeaderResolve primary secondary with
  | none => (false, fs)
  | some hdr =>
    if (lookupFs fs dst).isSome then (false, fs)
    else if openOk then (true, insertFs fs dst hdr)
    else (false, fs)

/-! ### Siemens payload validation (MMR.hpp 273-471, 534-574) -/

inductive FileStatusCode
  | EGOOD
  | EBAD
  | EIOERROR
deriving DecidableEq

/-- `IMMR::CheckForSiemensBFFile` (MMR.hpp 273-304): switch the extension of
`src` to `.bf`; `EIOERROR` when that file cannot be opened, `EGOOD` when its
byte length equals `numOfBytes`, `EBAD` otherwise.  (The `int64`/`uint64`
comparison of the source is exact for any real file length.) -/

def IMMR.CheckForSiemensBFFile (fs : Fs) (src : Bytes) (numOfBytes : Nat) : FileStatusCode :=
  match lookupFs fs (replaceExtBf src) with
  | none => .EIOERROR
  | some bf => if bf.length = numOfBytes then .EGOOD else .EBAD

/-- The word count declared by an Interfile header: find the first occurrence
of `"%total listmode word counts"`, truncate that suffix at the first
newline, and read the first run of digits on it. -/

def declaredWordCountHdr (h : Bytes) : Option Nat :=
  match findSub h wordCountLabel with
  | none => none
  | some pos => (firstDigitRun (takeUntilNl (h.drop pos))).map digitsToNat

/-- `MMR32BitList::IsValid` (MMR.hpp 405-471).  `lmLen` is the byte length of
the inline payload tag (7fe1,1010); the `.bf` sidecar is looked up in `fs`.
`expectedNoWords` comes from `boost::lexical_cast<unsigned long>` on the digit
run: the cast throws `bad_lexical_cast` for values outside `uint64` — uncaught
in `IsValid`, modelled as `none` — and the comparison value
`expectedNoWords * 4` is a `uint64` product, wrapping modulo `2 ^ 64`. -/

def MMR32BitList.IsValid (primary secondary : Option Bytes) (lmLen : Nat) (src : Bytes)
    (fs : Fs) : Option Bool :=
  match IMMR.ReadHeader primary secondary with
  | none => some false
  | some h =>
    match findSub h wordCountLabel with
    | none => some false
    | some pos =>
      match firstDigitRun (takeUntilNl (h.drop pos)) with
      | none => some false
      | some ds =>
        if 2 ^ 64 ≤ digitsToNat ds then none
        else
          let expectedNoWords := digitsToNat ds
          if lmLen = expectedNoWords * 4 % 2 ^ 64 then some true
          else
            match IMMR.CheckForSiemensBFFile fs src (expectedNoWords * 4 % 2 ^ 64) with
            | .EGOOD => some true
            | _ => some false

/-- `MMR32BitList::ExtractData` (MMR.hpp 307-402).  `lmBytes` is the inline
payload; `openOk` is the outcome of opening the output stream (and stands
for the `boost::filesystem::copy` succeeding on the sidecar branch, whose
failure is caught and turned into `false`). -/

def MMR32BitList.ExtractData (primary secondary : Option Bytes) (lmBytes : Bytes)
    (src dst : Bytes) (fs : Fs) (openOk : Bool) : Bool × Fs :=
  match IMMR.ReadHeader primary secondary with
  | none => (false, fs)
  | some h =>
    if (lookupFs fs dst).isSome then (false, fs)
    else
      match findSub h wordCountLabel with
      | none => (false, fs)
      | some pos =>
        match firstDigitRun (takeUntilNl (h.drop pos)) with
        | none => (false, fs)
        | some ds =>
          let expectedNoWords := digitsToNat ds
          if lmBytes.length = expectedNoWords * 4 then
            if openOk then (true, insertFs fs dst lmBytes) else (false, fs)
          else
            match IMMR.CheckForSiemensBFFile fs src (expectedNoWords * 4) with
            | .EGOOD =>
              match lookupFs fs (replaceExtBf src) with
              | none => (false, fs)
              | some bf =>
                if (lookupFs fs dst).isSome then (false, fs)
                else if openOk then (true, insertFs fs dst bf) else (false, fs)
            | _ => (false, fs)

def msgUnableHeader : Bytes := "Unable to read header!".toList

def msgCannotCheckSino : Bytes := "Cannot check sinogram length due to compression.".toList

/-- `MMRSino::IsValid` (MMR.hpp 534-574), together with the `LOG` messages it
emits at `ERROR`/`WARNING` level.  After a readable header it always warns
that the length cannot be checked, then reports valid iff the `.bf` sidecar
exists or, failing that, the inline payload length is non-zero. -/

def MMRSino.IsValid (primary secondary : Option Bytes) (lmLen : Nat) (src : Bytes)
    (fs : Fs) : Bool × List Bytes :=
  match IMMR.ReadHeader primary secondary with
  | none => (false, [msgUnableHeader])
  | some _ =>
    if (lookupFs fs (replaceExtBf src)).isSome then (true, [msgCannotCheckSino])
    else if lmLen = 0 then (false, [msgCannotCheckSino])
    else (true, [msgCannotCheckSino])

/-! ### Header rewriting (MMR.hpp 691-770) -/

/-- The in-memory string transformation of `IMMR::ModifyHeader` (MMR.hpp
703-712): locate `"name of data file"`; when absent, `find` returns `npos`
and the following `substr(pos, ...)` throws `std::out_of_range` (modelled as
`none`); when found, the line from there to the first `'\n'` or `'\r'` is
replaced by `"name of data file:=" + dataFile.filename()`. -/

def immrModifyString (h dataFile : Bytes) : Option Bytes :=
  match findSub h nameOfDataFileLabel with
  | none => none
  | some pos =>
    let line := takeLineNR (h.drop pos)
    let newLine := nameOfDataFileLabel ++ [':', '='] ++ lastComponent dataFile
    some (h.take pos ++ newLine ++ h.drop (pos + line.length))

/-- `IMMR::ModifyHeader` (MMR.hpp 691-729): read the header file at `src`
(`boost::filesystem::canonical` throws when it is missing), perform the
data-file-name line substitution — throwing when the label is absent —
then open `src` for writing (`openOk`), run `CleanUpLineEncoding` on the
whole text and write it back.  `none` models an uncaught exception. -/

def IMMR.ModifyHeader (fs : Fs) (src dataFile : Bytes) (openOk : Bool) :
    Option (Bool × Fs) :=
  match lookupFs fs src with
  | none => none
  | some h =>
    match immrModifyString h dataFile with
    | none => none
    | some h2 =>
      if openOk then some (true, insertFs fs src (IMMR.CleanUpLineEncoding h2))
      else some (false, fs)

/-- The in-memory string transformation of `MMRNorm::ModifyHeader` (MMR.hpp
741-750): same shape, on the `"%data set [1]:={0,,"` descriptor line. -/

def normModifyString (h dataFile : Bytes) : Option Bytes :=
  match findSub h dataSetLabel with
  | none => none
  | some pos =>
    let line := takeLineNR (h.drop pos)
    let newLine := dataSetLabel ++ lastComponent dataFile ++ ("\x7d").toList
    some (h.take pos ++ newLine ++ h.drop (pos + line.length))

/-- `MMRNorm::ModifyHeader` (MMR.hpp 732-770): rewrite the data-set
descriptor line, clean the line endings and write back (`open1` = first
stream open), then invoke the base-class `IMMR::ModifyHeader` on the same
path (`open2` = its stream open) — and return `true` regardless of the
boolean that call produced. -/

def MMRNorm.ModifyHeader (fs : Fs) (src dataFile : Bytes) (open1 open2 : Bool) :
    Option (Bool × Fs) :=
  match lookupFs fs src with
  | none => none
  | some h =>
    match normModifyString h dataFile with
    | none => none
    | some h2 =>
      if open1 then
        let fs1 := insertFs fs src (IMMR.CleanUpLineEncoding h2)
        match IMMR.ModifyHeader fs1 src dataFile open2 with
        | none => none
        | some (_, fs2) => some (true, fs2)
      else some (false, fs)

/-! ### The GE factory (GEPET.hpp 199-308) -/

inductive GEFileType
  | EGEPETCTAC
  | EGEPETSINO
  | EGEPETLIST
  | EGEPETNORM2D
  | EGEPETNORM3D
  | EGEPETWCC
  | EGEPETGEO
  | EUNKNOWN
  | EERROR
deriving DecidableEq

/-- The tag data `GEPETFactory` inspects for one source file: `openOk` is
the success of `IRawDataFactory::Open` (DICOM read plus manufacturer and
model tag reads), and the remaining fields are `GetTagInfo` outcomes for
tags (0021,1001), (0009,1019) and (0017,1006). -/

structure GEFile where
  openOk : Bool
  manufacturer : Bytes
  rawDataType : Option Bytes
  sinoType : Option Bytes
  calType : Option Bytes

def msgWCCUnsupported : Bytes :=
  "pet-rd-tools does not support GE Well-counter-calibration (WCC) files yet".toList

def msgUnableRaw : Bytes := "Unable to type of raw data!".toList

def msgUnableSino : Bytes := "Unable to type of sino data!".toList

def msgUnableNormCal : Bytes := "Unable to find type of normalisation data".toList

def msgUnableGeoCal : Bytes := "Unable to find type of calibration data".toList

/-- `GEPETFactory::GetFileType` (GEPET.hpp 204-279), with the `LOG(ERROR)`
messages it emits.  Tag values are matched by substring (`find != npos`),
exactly as the source does. -/

def GEPETFactory.GetFileType (f : GEFile) : GEFileType × List Bytes :=
  if f.openOk = false then (.EERROR, [])
  else if hasSub f.manufacturer ("GE MEDICAL SYSTEMS").toList then
    match f.rawDataType with
    | none => (.EERROR, [msgUnableRaw])
    | some v =>
      if hasSub v ['3'] then
        match f.sinoType with
        | none => (.EERROR, [msgUnableSino])
        | some sv =>
          if hasSub sv ['0'] then (.EGEPETSINO, [])
          else if hasSub sv ['5'] then (.EGEPETCTAC, [])
          else (.EUNKNOWN, [])
      else if hasSub v ['4'] then
        match f.calType with
        | none => (.EERROR, [msgUnableNormCal])
        | some cv =>
          if hasSub cv ['0'] then (.EGEPETNORM2D, [])
          else if hasSub cv ['2'] then (.EGEPETNORM3D, [])
          else (.EUNKNOWN, [])
      else if hasSub v ['5'] then
        match f.calType with
        | none => (.EERROR, [msgUnableGeoCal])
        | some cv =>
          if hasSub cv ['3'] then (.EGEPETGEO, [])
          else (.EUNKNOWN, [])
      else if hasSub v ['7'] then (.EUNKNOWN, [msgWCCUnsupported])
      else (.EUNKNOWN, [])
  else (.EUNKNOWN, [])

/-- The concrete container subtypes `GEPETFactory::Create_ptr` can
construct. -/

inductive GEContainer
  | listmode
  | sino
  | norm
  | geo
deriving DecidableEq

/-- `GEPETFactory::Create_ptr` (GEPET.hpp 282-307): construct the container
matching the classified kind; `nullptr` (here `none`) for every other kind
(`EGEPETCTAC`, `EGEPETWCC`, `EUNKNOWN`, `EERROR`). -/

def GEPETFactory.Create (f : GEFile) : Option GEContainer :=
  match (GEPETFactory.GetFileType f).1 with
  | .EGEPETLIST => some .listmode
  | .EGEPETSINO => some .sino
  | .EGEPETNORM2D => some .norm
  | .EGEPETNORM3D => some .norm
  | .EGEPETGEO => some .geo
  | _ => none

/-! ### `ReadAsSiemensPTD` (lib/Validate.hpp 170-292) -/

inductive PTDStatus
  | EGOOD
  | EBAD
  | EIOERROR
  | EEXN
deriving DecidableEq

/-- The reverse scan's match test at seek position `c`: the four bytes at
`c..c+3` equal `"DICM"`.  (At positions within 3 bytes of the end the
accumulated buffer is shorter than four real bytes and is padded by the
`fgetc` EOF sentinel `0xFF`, which differs from every `"DICM"` byte, so no
match is possible there — hence the `c + 4 ≤ length` guard.) -/

def dicmAt (f : Bytes) (c : Nat) : Bool :=
  decide (c + 4 ≤ f.length ∧ (f.drop c).take 4 = dicm)

/-- The backward loop `for (c = endOfFile; c > endOfFile - 50000; c--)`:
test positions `c, c-1, ...` for `fuel` iterations, returning the first —
hence highest — matching offset. -/

def scanAux (f : Bytes) : Nat → Nat → Option Nat
  | _, 0 => none
  | c, fuel + 1 =>
    if dicmAt f c then some c
    else
      match c with
      | 0 => none
      | c' + 1 => scanAux f c' fuel

/-- The backward `"DICM"` scan of `ReadAsSiemensPTD` (Validate.hpp 201-215),
bounded to the last 50000 seek positions. -/

def scanBackDICM (f : Bytes) : Option Nat := scanAux f f.length 50000

/-- The `fgetc` result at end-of-file, narrowed to a byte. -/
def eofByte : Char := Char.ofNat 255

/-- The accumulated buffer when the scan breaks at offset `c`: the file
bytes from `c` to the end, plus the EOF sentinel read at the very first
iteration. -/

def ptdTail (f : Bytes) (c : Nat) : Bytes := f.drop c ++ [eofByte]

/-- Result of parsing the header embedded in a PTD tail buffer
(Validate.hpp 226-271): `bad` for every "return EBAD" path (missing
`"!INTERFILE"`, missing `"%comment"`, missing word-count line or digits);
`exn` when `substr(inPoint, ...)` would throw `std::out_of_range`
(`inPoint` past the trimmed length); `count n` on success. -/

inductive PTDParse
  | bad
  | exn
  | count (n : Nat)
deriving DecidableEq

/-- The header-parsing phase of `ReadAsSiemensPTD` (Validate.hpp 226-271):
find `"!INTERFILE"` and `"%comment"`, trim the buffer to the header range
exactly as the source does (prefix up to `"%comment"` plus that line, then
from `inPoint` on), and read the first digit run of the
`"%total listmode word counts"` line. -/

def ptdParseHeader (hdr : Bytes) : PTDParse :=
  match findSub hdr interfileMark with
  | none => .bad
  | some inPoint =>
    match findSub hdr commentMark with
    | none => .bad
    | some cpos =>
      let trimmed := hdr.take cpos ++ takeUntilNl (hdr.drop cpos)
      if trimmed.length < inPoint then .exn
      else
        match findSub (trimmed.drop inPoint) wordCountLabel with
        | none => .bad
        | some tpos =>
          match firstDigitRun (takeUntilNl ((trimmed.drop inPoint).drop tpos)) with
          | none => .bad
          | some ds => .count (digitsToNat ds)

/-- The word count declared inside a PTD tail buffer, when parsing
succeeds. -/

def declaredWordCountPTD (hdr : Bytes) : Option Nat :=
  match ptdParseHeader hdr with
  | .count n => some n
  | _ => none

/-- The numeric phase of `ReadAsSiemensPTD` (Validate.hpp 264-291) for
marker offset `c` and declared count `n`.  `EEXN` marks
`boost::lexical_cast<unsigned long>` dying on a digit run above
`2 ^ 64 - 1`.  The `% 4` test of the source is C truncated remainder,
which is zero exactly when the Euclidean remainder used here is; the final
comparison is between `uint64` values, hence the `% 2 ^ 64` on the signed
quotient (exact division, so truncated and Euclidean quotients agree). -/

def ptdNumericCheck (c : Nat) (n : Nat) : PTDStatus :=
  if 2 ^ 64 ≤ n then .EEXN
  else if ¬ ((c : Int) - 128) % 4 = 0 then .EBAD
  else if (((c : Int) - 128) / 4) % (2 ^ 64) = (n : Int) then .EGOOD
  else .EBAD

/-- The body of `ReadAsSiemensPTD` after the scan succeeded at offset `c`
(Validate.hpp 220-291): parse the embedded header, then run the word-count
arithmetic against the marker offset. -/

def ptdCheckHeader (c : Nat) (hdr : Bytes) : PTDStatus :=
  match ptdParseHeader hdr with
  | .bad => .EBAD
  | .exn => .EEXN
  | .count n => ptdNumericCheck c n

/-- `ReadAsSiemensPTD` (Validate.hpp 170-292), for a file that opened
successfully: scan backwards for `"DICM"`; `EBAD` when it is not within the
bound; otherwise validate the embedded header against the marker offset. -/

def ReadAsSiemensPTD (f : Bytes) : PTDStatus :=
  match scanBackDICM f with
  | none => .EBAD
  | some c => ptdCheckHeader c (ptdTail f c)

/-! ## Claim theorems -/

/-- An element whose byte-value pointer is `NULL` (tag missing), with the
fallback stringification producing the `"Loaded:"` placeholder. -/

def tagMissingExample : TagElement := ⟨none, [], loadedSentinel ++ ['0'], false⟩

/-- A concrete 50128-byte file for exercising the PTD validation. -/
def ptdWitnessFile : Bytes := List.replicate 50128 'a'

theorem listStarts_iff (p s : Bytes) : listStarts p s = true ↔ ∃ t, s = p ++ t := by
  induction p generalizing s with
  | nil => simp [listStarts]
  | cons a p ih =>
    cases s with
    | nil => simp [listStarts]
    | cons b t =>
      by_cases hab : a = b
      · subst hab
        have hred : listStarts (a :: p) (a :: t) = listStarts p t := by
          simp [listStarts]
        rw [hred, ih]
        constructor
        · rintro ⟨u, rfl⟩; exact ⟨u, rfl⟩
        · rintro ⟨u, hu⟩
          simp only [List.cons_append, List.cons.injEq, true_and] at hu
          exact ⟨u, hu⟩
      · simp only [listStarts, if_neg hab]
        constructor
        · intro h; simp at h
        · rintro ⟨u, hu⟩
          simp only [List.cons_append, List.cons.injEq] at hu
          exact absurd hu.1.symm hab

theorem findSub_some (s pat : Bytes) (i : Nat) (h : findSub s pat = some i) :
    s = s.take i ++ pat ++ s.drop (i + pat.length) := by
  induction s generalizing i with
  | nil =>
    simp only [findSub] at h
    split at h
    · rename_i hst
      obtain ⟨t, ht⟩ := (listStarts_iff pat []).1 hst
      obtain ⟨hp, -⟩ := List.append_eq_nil.1 ht.symm
      subst hp
      simp
    · cases h
  | cons c t ih =>
    simp only [findSub] at h
    split at h
    · rename_i hst
      obtain ⟨u, hu⟩ := (listStarts_iff pat (c :: t)).1 hst
      obtain ⟨rfl⟩ : i = 0 := by simpa using h.symm
      rw [hu]
      simp [List.drop_left]
    · rename_i hst
      obtain ⟨j, hj, rfl⟩ : ∃ j, findSub t pat = some j ∧ i = j + 1 := by
        cases hf : findSub t pat <;> simp [hf] at h
        simp [h.symm]
      have := ih j hj
      calc c :: t = c :: (t.take j ++ pat ++ t.drop (j + pat.length)) := by rw [← this]
        _ = (c :: t).take (j + 1) ++ pat ++ (c :: t).drop (j + 1 + pat.length) := by
            simp only [List.take_succ_cons, List.cons_append]
            have : j + 1 + pat.length = (j + pat.length) + 1 := by omega
            rw [this]
            rfl

theorem hasSub_of_starts {s pat : Bytes} (h : listStarts pat s = true) :
    hasSub s pat = true := by
  cases s <;> simp [hasSub, findSub, h]

theorem occurs_hasSub {pat s : Bytes} (h : Occurs pat s) : hasSub s pat = true := by
  obtain ⟨a, b, rfl⟩ := h
  induction a with
  | nil =>
    apply hasSub_of_starts
    exact (listStarts_iff pat _).2 ⟨b, by simp⟩
  | cons c a ih =>
    by_cases hst : listStarts pat (c :: (a ++ pat ++ b)) = true
    · exact hasSub_of_starts hst
    · simp only [hasSub, List.cons_append, findSub]
      rw [if_neg (by simpa using hst)]
      simp only [hasSub] at ih
      cases hf : findSub (a ++ pat ++ b) pat with
      | none => rw [hf] at ih; simp at ih
      | some j => simp

theorem hasSub_iff (s pat : Bytes) : hasSub s pat = true ↔ Occurs pat s := by
  constructor
  · intro h
    simp only [hasSub, Option.isSome_iff_exists] at h
    obtain ⟨i, hi⟩ := h
    exact ⟨s.take i, s.drop (i + pat.length), findSub_some s pat i hi⟩
  · exact occurs_hasSub

theorem Occurs.append_right {pat s : Bytes} (h : Occurs pat s) (v : Bytes) :
    Occurs pat (s ++ v) := by
  obtain ⟨a, b, rfl⟩ := h
  exact ⟨a, b ++ v, by simp⟩

theorem Occurs.append_left {pat s : Bytes} (h : Occurs pat s) (v : Bytes) :
    Occurs pat (v ++ s) := by
  obtain ⟨a, b, rfl⟩ := h
  exact ⟨v ++ a, b, by simp⟩

theorem Occurs.trans {t v u : Bytes} (hvu : Occurs v u) (htv : Occurs t v) :
    Occurs t u := by
  obtain ⟨a, b, rfl⟩ := hvu
  obtain ⟨c, d, rfl⟩ := htv
  exact ⟨a ++ c, d ++ b, by simp⟩

theorem lookupFs_insert (fs : Fs) (p v : Bytes) :
    lookupFs (insertFs fs p v) p = some v := by
  simp [insertFs, lookupFs]

theorem lookupFs_insert_ne (fs : Fs) (p q v : Bytes) (h : ¬ p = q) :
    lookupFs (insertFs fs p v) q = lookupFs fs q := by
  simp [insertFs, lookupFs, h]

theorem splitNl_ne_nil (s : Bytes) : splitNl s ≠ [] := by
  cases s with
  | nil => simp [splitNl]
  | cons c t =>
    simp only [splitNl]
    split <;> simp

/-- C4 counterexample: the claim says `GetTagInfo` returns `present = false`
when the tag's byte-value pointer is null; on this concrete element the
byte-value pointer is null and no allocation failure occurs, yet
`GetTagInfo` succeeds (`present = true`) with the empty string as value —
the commented-out `else return false;` in Common.hpp line 72 means a null
byte value no longer reports absence. -/
theorem getTagInfo_missing_counterexample :
    tagMissingExample.byteValue = none ∧ tagMissingExample.allocFail = false ∧
    GetTagInfo tagMissingExample = some [] := by
  refine ⟨rfl, rfl, ?_⟩
  decide

/-- C4 (amended): `GetTagInfo` reports failure (`present = false`) exactly
when the read raises an allocation failure; a tag whose byte-value pointer
is null is still reported present, its value being the fallback
stringification of `element.GetValue()` unless that carries the `"Loaded:"`
sentinel prefix, in which case the value is left empty (the sentinel
fallback is rejected as a value, but the tag is not treated as absent). -/

theorem getTagInfo_null_byteValue_spec (e : TagElement) :
    (GetTagInfo e = none ↔ e.allocFail = true) ∧
    (e.allocFail = false → e.byteValue = none →
      GetTagInfo e = some (if listStarts loadedSentinel e.printed then [] else e.printed)) := by
  constructor
  · unfold GetTagInfo
    split <;> simp_all
  · intro haf hbv
    unfold GetTagInfo
    rw [if_neg (by simp [haf]), hbv]
    simp

/-- Witness for C4's amended theorem at a concrete element. -/
theorem getTagInfo_null_byteValue_spec_witness :
    GetTagInfo ⟨none, [], ("abc").toList, false⟩ = some (("abc").toList) := by
  have h := (getTagInfo_null_byteValue_spec ⟨none, [], ("abc").toList, false⟩).2 rfl rfl
  rw [h]
  decide

/-- C9: for a Siemens sinogram container whose header resolves, `IsValid`
performs no exact-length check — it returns `true` exactly when the
same-stem `.bf` sidecar exists or, failing that, the inline payload tag's
byte length is non-zero — and it always logs the warning that the sinogram
length cannot be checked. -/

theorem mmrSino_isValid_spec (primary secondary : Option Bytes) (lmLen : Nat)
    (src : Bytes) (fs : Fs) (h : Bytes)
    (hread : IMMR.ReadHeader primary secondary = some h) :
    ((MMRSino.IsValid primary secondary lmLen src fs).1 = true ↔
      ((lookupFs fs (replaceExtBf src)).isSome = true ∨ lmLen ≠ 0)) ∧
    msgCannotCheckSino ∈ (MMRSino.IsValid primary secondary lmLen src fs).2 := by
  unfold MMRSino.IsValid
  rw [hread]
  constructor
  · by_cases hbf : (lookupFs fs (replaceExtBf src)).isSome = true <;>
      by_cases hl : lmLen = 0 <;>
      simp [hbf, hl]
  · by_cases hbf : (lookupFs fs (replaceExtBf src)).isSome = true <;>
      by_cases hl : lmLen = 0 <;>
      simp [hbf, hl]

/-- Witness for C9 at a concrete container: no sidecar, non-zero inline
payload. -/

theorem mmrSino_isValid_spec_witness :
    ((MMRSino.IsValid (some ['h']) none 5 (("f.ptd").toList) []).1 = true ↔
      ((lookupFs [] (replaceExtBf (("f.ptd").toList))).isSome = true ∨ 5 ≠ 0)) ∧
    msgCannotCheckSino ∈ (MMRSino.IsValid (some ['h']) none 5 (("f.ptd").toList) []).2 :=
  mmrSino_isValid_spec (some ['h']) none 5 (("f.ptd").toList) [] ['h'] (by decide)

/-- C5 counterexample: the claim says `ReadHeader` and `ExtractHeader` both
re-read from the secondary tag (0029,1110) exactly when the primary decoded
text contains `"SV10"` or is empty.  With an empty primary text and a
non-empty secondary, `ReadHeader` resolves the secondary text but
`ExtractHeader`'s resolution keeps the empty primary — the two disagree, so
the claimed rule does not hold for `ExtractHeader`. -/

theorem extractHeader_empty_primary_counterexample :
    IMMR.ReadHeader (some []) (some ['X']) = some ['X'] ∧
    IMMR.ExtractHeaderResolve (some []) (some ['X']) = some [] ∧
    some ([] : Bytes) ≠ some ['X'] := by
  refine ⟨by decide, by decide, by decide⟩

/-- C5 (amended): `ReadHeader` re-reads from the secondary tag exactly when
the primary decoded text (empty on a failed primary read) contains `"SV10"`
or is empty, and then succeeds iff the secondary text is non-empty;
`ExtractHeader` re-reads only when the primary text contains `"SV10"` (a
failed primary read aborts, and an empty primary text is kept as-is); on
success `ExtractHeader` writes the byte content of its resolved header,
unchanged, to the destination. -/

theorem headerResolution_spec (primary secondary : Option Bytes) :
    ((hasSub (primary.getD []) sv10 = true ∨ primary.getD [] = []) →
      IMMR.ReadHeader primary secondary
        = secondary.bind (fun h => if h.length > 0 then some h else none)) ∧
    ((hasSub (primary.getD []) sv10 = false ∧ primary.getD [] ≠ []) →
      IMMR.ReadHeader primary secondary = some (primary.getD [])) ∧
    (∀ tmp, primary = some tmp → hasSub tmp sv10 = true →
      IMMR.ExtractHeaderResolve primary secondary = secondary) ∧
    (∀ tmp, primary = some tmp → hasSub tmp sv10 = false →
      IMMR.ExtractHeaderResolve primary secondary = some tmp) ∧
    (∀ hdr dst fs openOk, IMMR.ExtractHeaderResolve primary secondary = some hdr →
      (IMMR.ExtractHeader primary secondary dst fs openOk).1 = true →
      lookupFs (IMMR.ExtractHeader primary secondary dst fs openOk).2 dst = some hdr) := by
  refine ⟨?_, ?_, ?_, ?_, ?_⟩
  · intro hcond
    unfold IMMR.ReadHeader
    have : (hasSub (primary.getD []) sv10 || (primary.getD []).length == 0) = true := by
      rcases hcond with hc | hc
      · simp [hc]
      · simp [hc]
    rw [if_pos this]
    cases secondary <;> simp
  · rintro ⟨h1, h2⟩
    unfold IMMR.ReadHeader
    have : (hasSub (primary.getD []) sv10 || (primary.getD []).length == 0) = false := by
      simp [h1, h2]
    rw [if_neg (by simp [this])]
    have : (primary.getD []).length > 0 := by
      cases hp : primary.getD [] with
      | nil => exact absurd hp h2
      | cons a t => simp
    simp [this]
  · intro tmp hp hsv
    unfold IMMR.ExtractHeaderResolve
    rw [hp]
    simp [hsv]
  · intro tmp hp hsv
    unfold IMMR.ExtractHeaderResolve
    rw [hp]
    simp [hsv]
  · intro hdr dst fs openOk hres
    unfold IMMR.ExtractHeader
    rw [hres]
    by_cases hex : (lookupFs fs dst).isSome = true
    · simp [hex]
    · cases openOk <;> simp [hex, lookupFs_insert]

/-- Witness for C5's amended theorem at concrete tag contents (a primary
containing the `"SV10"` magic and a successful write). -/

theorem headerResolution_spec_witness :
    IMMR.ExtractHeaderResolve (some (("xSV10y").toList)) (some ['H']) = some ['H'] ∧
    lookupFs (IMMR.ExtractHeader (some (("xSV10y").toList)) (some ['H']) ['d'] [] true).2 ['d']
      = some ['H'] := by
  have h := headerResolution_spec (some (("xSV10y").toList)) (some ['H'])
  refine ⟨h.2.2.1 _ rfl (by decide), ?_⟩
  exact h.2.2.2.2 ['H'] ['d'] [] true (h.2.2.1 _ rfl (by decide)) (by decide)


/-- The payload-length branch shared by the list-mode validation: inline
length check against the wrapped `uint64` product, else `.bf` sidecar check. -/

theorem isValid_tail_iff (lmLen n : Nat) (src : Bytes) (fs : Fs) :
    ((if lmLen = n * 4 % 2 ^ 64 then some true
      else
        match IMMR.CheckForSiemensBFFile fs src (n * 4 % 2 ^ 64) with
        | .EGOOD => some true
        | _ => some false) = some true) ↔
    (lmLen = 4 * n % 2 ^ 64 ∨
     (lookupFs fs (replaceExtBf src)).map List.length = some (4 * n % 2 ^ 64)) := by
  unfold IMMR.CheckForSiemensBFFile
  by_cases hlm : lmLen = n * 4 % 2 ^ 64
  · rw [if_pos hlm]
    constructor
    · intro _; exact Or.inl (by omega)
    · intro _; rfl
  · rw [if_neg hlm]
    cases hbf : lookupFs fs (replaceExtBf src) with
    | none =>
      simp only [Option.map_none']
      constructor
      · intro hc; simp at hc
      · rintro (hl | hr)
        · omega
        · simp at hr
    | some bf =>
      by_cases hbl : bf.length = n * 4 % 2 ^ 64
      · simp only [if_pos hbl, Option.map_some']
        constructor
        · intro _; exact Or.inr (by rw [hbl]; congr 1; omega)
        · intro _; trivial
      · simp only [if_neg hbl, Option.map_some']
        constructor
        · intro hc; simp at hc
        · rintro (hl | hr)
          · omega
          · simp only [Option.some.injEq] at hr; omega

/-- C1 counterexample: the claim says `IsValid` is true only when the payload
byte length equals 4 times the declared word count.  On a header declaring
`2 ^ 62` words with a 0-byte inline payload and no sidecar, the source's
`uint64` product `expectedNoWords * 4` wraps to 0, so `IsValid` returns
`true` although `0 ≠ 4 * 2 ^ 62`. -/

theorem mmr32BitList_wrap_counterexample :
    MMR32BitList.IsValid
        (some (("%total listmode word counts := 4611686018427387904\nx").toList)) none 0
        (("f.ptd").toList) [] = some true ∧
    declaredWordCountHdr (("%total listmode word counts := 4611686018427387904\nx").toList)
        = some (2 ^ 62) ∧
    (0 : Nat) ≠ 4 * 2 ^ 62 := by
  refine ⟨by decide, by decide, by norm_num⟩

/-- C1 (amended): for a Siemens list-mode container whose header resolves to
`h`, `IsValid` returns `true` iff the header declares a word count `n` (first
digit run on the `"%total listmode word counts"` line) representable in
`uint64` and the payload length in bytes equals `4 * n` reduced modulo
`2 ^ 64` (the source computes the product in `uint64`), the payload being the
inline bytes of tag (7fe1,1010) or else a same-stem `.bf` sidecar of exactly
that length; a declared count of `2 ^ 64` or more makes the embedded
`lexical_cast` throw, propagating out of `IsValid`; a header without the
word-count line is invalid. -/

theorem mmr32BitList_isValid_spec (primary secondary : Option Bytes) (lmLen : Nat)
    (src : Bytes) (fs : Fs) (h : Bytes)
    (hread : IMMR.ReadHeader primary secondary = some h) :
    (MMR32BitList.IsValid primary secondary lmLen src fs = some true ↔
      ∃ n, declaredWordCountHdr h = some n ∧ n < 2 ^ 64 ∧
        (lmLen = 4 * n % 2 ^ 64 ∨
         (lookupFs fs (replaceExtBf src)).map List.length = some (4 * n % 2 ^ 64))) ∧
    (∀ n, declaredWordCountHdr h = some n → 2 ^ 64 ≤ n →
      MMR32BitList.IsValid primary secondary lmLen src fs = none) ∧
    (hasSub h wordCountLabel = false →
      MMR32BitList.IsValid primary secondary lmLen src fs = some false) := by
  refine ⟨?_, ?_, ?_⟩
  · unfold MMR32BitList.IsValid declaredWordCountHdr
    simp only [hread]
    cases hpos : findSub h wordCountLabel with
    | none => simp [hpos]
    | some pos =>
      cases hds : firstDigitRun (takeUntilNl (h.drop pos)) with
      | none => simp [hds]
      | some ds =>
        simp only [hds, Option.map_some', Option.some.injEq, exists_eq_left']
        by_cases hov : 2 ^ 64 ≤ digitsToNat ds
        · rw [if_pos hov]
          constructor
          · intro hc; exact Option.noConfusion hc
          · rintro ⟨hlt, -⟩; omega
        · rw [if_neg hov]
          constructor
          · intro hg
            exact ⟨by omega, (isValid_tail_iff lmLen (digitsToNat ds) src fs).1 hg⟩
          · rintro ⟨-, hd⟩
            exact (isValid_tail_iff lmLen (digitsToNat ds) src fs).2 hd
  · intro n hn hge
    unfold declaredWordCountHdr at hn
    cases hpos : findSub h wordCountLabel with
    | none => rw [hpos] at hn; exact Option.noConfusion hn
    | some pos =>
      simp only [hpos] at hn
      cases hds : firstDigitRun (takeUntilNl (h.drop pos)) with
      | none => rw [hds] at hn; exact Option.noConfusion hn
      | some ds =>
        rw [hds] at hn
        simp only [Option.map_some', Option.some.injEq] at hn
        subst hn
        unfold MMR32BitList.IsValid
        simp only [hread, hpos, hds]
        rw [if_pos hge]
  · intro hns
    unfold MMR32BitList.IsValid
    simp only [hread]
    unfold hasSub at hns
    cases hfind : findSub h wordCountLabel with
    | none => rfl
    | some pos => rw [hfind] at hns; simp at hns

/-- Witness for C1's amended theorem at a concrete container: header declaring
2 words, inline payload of 8 bytes, no sidecar. -/

theorem mmr32BitList_isValid_spec_witness :
    (MMR32BitList.IsValid (some (("%total listmode word counts := 2\nx").toList)) none 8
        (("f.ptd").toList) [] = some true ↔
      ∃ n, declaredWordCountHdr (("%total listmode word counts := 2\nx").toList) = some n ∧
        n < 2 ^ 64 ∧
        (8 = 4 * n % 2 ^ 64 ∨
         (lookupFs [] (replaceExtBf (("f.ptd").toList))).map List.length
           = some (4 * n % 2 ^ 64))) ∧
    (∀ n, declaredWordCountHdr (("%total listmode word counts := 2\nx").toList) = some n →
      2 ^ 64 ≤ n →
      MMR32BitList.IsValid (some (("%total listmode word counts := 2\nx").toList)) none 8
        (("f.ptd").toList) [] = none) ∧
    (hasSub (("%total listmode word counts := 2\nx").toList) wordCountLabel = false →
      MMR32BitList.IsValid (some (("%total listmode word counts := 2\nx").toList)) none 8
        (("f.ptd").toList) [] = some false) :=
  mmr32BitList_isValid_spec (some (("%total listmode word counts := 2\nx").toList)) none 8
    (("f.ptd").toList) [] (("%total listmode word counts := 2\nx").toList) (by decide)

/-- C8: extraction never silently overwrites — when the destination already
exists, `ExtractHeader` and `ExtractData` return `false` and leave the
filesystem (in particular the existing destination) untouched; and a
successful `ExtractHeader` implies the destination did not exist and the
new state is the old one plus exactly the one new file holding the resolved
header bytes. -/

theorem extract_no_overwrite_spec (primary secondary : Option Bytes) (lmBytes : Bytes)
    (src dst : Bytes) (fs : Fs) (openOk : Bool) :
    (∀ v, lookupFs fs dst = some v →
      IMMR.ExtractHeader primary secondary dst fs openOk = (false, fs) ∧
      MMR32BitList.ExtractData primary secondary lmBytes src dst fs openOk = (false, fs)) ∧
    (∀ fs2, IMMR.ExtractHeader primary secondary dst fs openOk = (true, fs2) →
      lookupFs fs dst = none ∧
      ∃ hdr, IMMR.ExtractHeaderResolve primary secondary = some hdr ∧
        fs2 = insertFs fs dst hdr ∧
        lookupFs fs2 dst = some hdr ∧
        ∀ q, ¬ q = dst → lookupFs fs2 q = lookupFs fs q) := by
  constructor
  · intro v hv
    have hsome : (lookupFs fs dst).isSome = true := by rw [hv]; rfl
    constructor
    · unfold IMMR.ExtractHeader
      cases hres : IMMR.ExtractHeaderResolve primary secondary with
      | none => rfl
      | some hdr => simp [hsome]
    · unfold MMR32BitList.ExtractData
      cases hrh : IMMR.ReadHeader primary secondary with
      | none => rfl
      | some hh => simp [hsome]
  · intro fs2 hok
    unfold IMMR.ExtractHeader at hok
    cases hres : IMMR.ExtractHeaderResolve primary secondary with
    | none => rw [hres] at hok; simp at hok
    | some hdr =>
      rw [hres] at hok
      have hok2 : (if (lookupFs fs dst).isSome = true then ((false, fs) : Bool × Fs)
          else if openOk = true then (true, insertFs fs dst hdr) else (false, fs))
          = (true, fs2) := hok
      by_cases hex : (lookupFs fs dst).isSome = true
      · rw [if_pos hex] at hok2; simp at hok2
      · rw [if_neg hex] at hok2
        cases openOk with
        | false => simp at hok2
        | true =>
          rw [if_pos rfl] at hok2
          have hfs2 : insertFs fs dst hdr = fs2 := congrArg Prod.snd hok2
          subst hfs2
          have hnone : lookupFs fs dst = none := by
            cases hlk : lookupFs fs dst with
            | none => rfl
            | some v => rw [hlk] at hex; exact absurd rfl hex
          refine ⟨hnone, hdr, rfl, rfl, lookupFs_insert fs dst hdr, ?_⟩
          intro q hq
          exact lookupFs_insert_ne fs dst q hdr (fun hh => hq hh.symm)

/-- Witness for C8 at a concrete pre-existing destination. -/
theorem extract_no_overwrite_spec_witness :
    IMMR.ExtractHeader (some ['H']) none ['d'] [(['d'], ['o'])] true = (false, [(['d'], ['o'])]) ∧
    MMR32BitList.ExtractData (some ['H']) none ['P'] ['s'] ['d'] [(['d'], ['o'])] true
      = (false, [(['d'], ['o'])]) :=
  (extract_no_overwrite_spec (some ['H']) none ['P'] ['s'] ['d'] [(['d'], ['o'])] true).1
    ['o'] (by decide)

/-- C3: for a GE file (manufacturer containing `"GE MEDICAL SYSTEMS"`, with
`Open` succeeding), the factory maps raw-data-type `"4"` with
calibration-type `"0"` to 2D normalization and with `"2"` to 3D
normalization; `"5"` with calibration-type `"3"` to geometry calibration;
`"7"` (well-counter calibration) to no classified kind — `EUNKNOWN`, with
the unsupported diagnostic logged and `Create` returning null; any failure
to read a needed tag yields `EERROR`, distinct from `EUNKNOWN`; and
`Create` returns null for `EUNKNOWN` and `EERROR`. -/

theorem gePETFactory_classification_spec (f : GEFile)
    (hopen : f.openOk = true)
    (hge : hasSub f.manufacturer (("GE MEDICAL SYSTEMS").toList) = true) :
    (f.rawDataType = some ['4'] → f.calType = some ['0'] →
      (GEPETFactory.GetFileType f).1 = .EGEPETNORM2D) ∧
    (f.rawDataType = some ['4'] → f.calType = some ['2'] →
      (GEPETFactory.GetFileType f).1 = .EGEPETNORM3D) ∧
    (f.rawDataType = some ['5'] → f.calType = some ['3'] →
      (GEPETFactory.GetFileType f).1 = .EGEPETGEO) ∧
    (f.rawDataType = some ['7'] →
      (GEPETFactory.GetFileType f).1 = .EUNKNOWN ∧
      msgWCCUnsupported ∈ (GEPETFactory.GetFileType f).2 ∧
      GEPETFactory.Create f = none) ∧
    (f.rawDataType = none → (GEPETFactory.GetFileType f).1 = .EERROR) ∧
    (f.rawDataType = some ['4'] → f.calType = none →
      (GEPETFactory.GetFileType f).1 = .EERROR) ∧
    (f.rawDataType = some ['5'] → f.calType = none →
      (GEPETFactory.GetFileType f).1 = .EERROR) ∧
    (f.rawDataType = some ['3'] → f.sinoType = none →
      (GEPETFactory.GetFileType f).1 = .EERROR) ∧
    (GEFileType.EERROR ≠ GEFileType.EUNKNOWN) ∧
    (∀ g : GEFile, (GEPETFactory.GetFileType g).1 = .EUNKNOWN ∨
        (GEPETFactory.GetFileType g).1 = .EERROR →
      GEPETFactory.Create g = none) := by
  refine ⟨?_, ?_, ?_, ?_, ?_, ?_, ?_, ?_, by decide, ?_⟩
  · intro hraw hcal
    unfold GEPETFactory.GetFileType
    rw [hopen, hraw, hcal, if_neg (by decide), if_pos hge]
    rfl
  · intro hraw hcal
    unfold GEPETFactory.GetFileType
    rw [hopen, hraw, hcal, if_neg (by decide), if_pos hge]
    rfl
  · intro hraw hcal
    unfold GEPETFactory.GetFileType
    rw [hopen, hraw, hcal, if_neg (by decide), if_pos hge]
    rfl
  · intro hraw
    refine ⟨?_, ?_, ?_⟩
    · unfold GEPETFactory.GetFileType
      rw [hopen, hraw, if_neg (by decide), if_pos hge]
      rfl
    · unfold GEPETFactory.GetFileType
      rw [hopen, hraw, if_neg (by decide), if_pos hge]
      show msgWCCUnsupported ∈ [msgWCCUnsupported]
      simp
    · unfold GEPETFactory.Create GEPETFactory.GetFileType
      rw [hopen, hraw, if_neg (by decide), if_pos hge]
      rfl
  · intro hraw
    unfold GEPETFactory.GetFileType
    rw [hopen, hraw, if_neg (by decide), if_pos hge]
  · intro hraw hcal
    unfold GEPETFactory.GetFileType
    rw [hopen, hraw, hcal, if_neg (by decide), if_pos hge]
    rfl
  · intro hraw hcal
    unfold GEPETFactory.GetFileType
    rw [hopen, hraw, hcal, if_neg (by decide), if_pos hge]
    rfl
  · intro hraw hsino
    unfold GEPETFactory.GetFileType
    rw [hopen, hraw, hsino, if_neg (by decide), if_pos hge]
    rfl
  · intro g hk
    unfold GEPETFactory.Create
    rcases hk with hk | hk <;> rw [hk]

/-- Witness for C3 at a concrete GE normalization file (raw type `"4"`,
calibration type `"0"`). -/

theorem gePETFactory_classification_spec_witness :
    (GEPETFactory.GetFileType
      ⟨true, ("GE MEDICAL SYSTEMS").toList, some ['4'], none, some ['0']⟩).1
      = GEFileType.EGEPETNORM2D :=
  (gePETFactory_classification_spec
      ⟨true, ("GE MEDICAL SYSTEMS").toList, some ['4'], none, some ['0']⟩
      rfl (by decide)).1 rfl rfl

/-! ### Lemmas about `splitNl`, `getlines` and `CleanUpLineEncoding` -/

theorem splitNl_append_line (a rest : Bytes) (ha : ('\n') ∉ a) :
    splitNl (a ++ '\n' :: rest) = a :: splitNl rest := by
  induction a with
  | nil => simp [splitNl]
  | cons c a ih =>
    have hc : ¬ c = '\n' := fun h => ha (h ▸ List.mem_cons_self c a)
    have ih2 := ih (fun hm => ha (List.mem_cons_of_mem c hm))
    simp only [List.cons_append, splitNl, if_neg hc, List.append_eq]
    rw [ih2]
    simp

theorem dropLastIfEmpty_concat (xs : List Bytes) : dropLastIfEmpty (xs ++ [[]]) = xs := by
  induction xs with
  | nil => rfl
  | cons x xs ih =>
    cases hx : xs ++ [([] : Bytes)] with
    | nil => simp at hx
    | cons w ws =>
      have h1 : dropLastIfEmpty (x :: w :: ws) = x :: dropLastIfEmpty (w :: ws) := rfl
      rw [List.cons_append, hx, h1, ← hx, ih]

theorem catList_append (xs ys : List Bytes) :
    catList (xs ++ ys) = catList xs ++ catList ys := by
  induction xs with
  | nil => rfl
  | cons x xs ih => simp [catList, ih]

theorem findSub_rr_none (l : Bytes) (hl : ('\r') ∉ l) :
    findSub (l ++ ['\r']) ['\r', '\r'] = none := by
  induction l with
  | nil => rfl
  | cons c l ih =>
    have hc : ¬ ('\r' = c) := fun h => hl (h ▸ List.mem_cons_self c l)
    have ih2 := ih (fun hm => hl (List.mem_cons_of_mem c hm))
    simp only [List.cons_append, findSub, listStarts, if_neg hc, List.append_eq, ih2]
    rfl

theorem cleanLine_canonical (l : Bytes) (hl : ('\r') ∉ l) :
    cleanLine (l ++ ['\r']) = l ++ crlf := by
  unfold cleanLine fixRR
  rw [findSub_rr_none l hl]
  have hmem : (l ++ ['\r']).contains '\r' = true := by
    simp
  rw [if_pos hmem]
  simp [crlf]

theorem splitNl_canonical (lines : List Bytes)
    (hl : ∀ l ∈ lines, ('\r') ∉ l ∧ ('\n') ∉ l) :
    splitNl (catList (lines.map (· ++ crlf))) = (lines.map (· ++ ['\r'])) ++ [[]] := by
  induction lines with
  | nil => rfl
  | cons x xs ih =>
    have hx := hl x (List.mem_cons_self x xs)
    have harr : x ++ crlf ++ catList (xs.map (· ++ crlf))
        = (x ++ ['\r']) ++ '\n' :: catList (xs.map (· ++ crlf)) := by
      simp [crlf]
    simp only [List.map_cons, catList, harr]
    rw [splitNl_append_line _ _ (by
      intro hm
      rcases List.mem_append.1 hm with hm | hm
      · exact hx.2 hm
      · simp at hm)]
    rw [ih (fun l hm => hl l (List.mem_cons_of_mem x hm))]
    simp

theorem cleanUp_canonical_aux (lines : List Bytes)
    (hl : ∀ l ∈ lines, ('\r') ∉ l ∧ ('\n') ∉ l) :
    IMMR.CleanUpLineEncoding (catList (lines.map (· ++ crlf)))
      = catList (lines.map (· ++ crlf)) ++ crlf := by
  unfold IMMR.CleanUpLineEncoding getlines
  rw [splitNl_canonical lines hl, dropLastIfEmpty_concat]
  congr 1
  rw [List.map_map]
  have : ∀ l ∈ lines, (cleanLine ∘ (· ++ ['\r'])) l = l ++ crlf := by
    intro l hm
    exact cleanLine_canonical l (hl l hm).1
  induction lines with
  | nil => rfl
  | cons x xs ih =>
    simp only [List.map_cons, catList]
    rw [this x (List.mem_cons_self x xs),
      ih (fun l hm => hl l (List.mem_cons_of_mem x hm))
         (fun l hm => this l (List.mem_cons_of_mem x hm))]

theorem findSub_rr_none0 (l : Bytes) (hl : ('\r') ∉ l) :
    findSub l ['\r', '\r'] = none := by
  induction l with
  | nil => rfl
  | cons c l ih =>
    have hc : ¬ ('\r' = c) := fun h => hl (h ▸ List.mem_cons_self c l)
    have ih2 := ih (fun hm => hl (List.mem_cons_of_mem c hm))
    simp only [findSub, listStarts, if_neg hc, List.append_eq, ih2]
    rfl

theorem findSub_rr_end (l : Bytes) (hl : ('\r') ∉ l) :
    findSub (l ++ ['\r', '\r']) ['\r', '\r'] = some l.length := by
  induction l with
  | nil => rfl
  | cons c l ih =>
    have hc : ¬ ('\r' = c) := fun h => hl (h ▸ List.mem_cons_self c l)
    have ih2 := ih (fun hm => hl (List.mem_cons_of_mem c hm))
    simp only [List.cons_append, findSub, listStarts, if_neg hc, List.append_eq, ih2]
    rfl

theorem fixRR_of_none {l : Bytes} (h : findSub l ['\r', '\r'] = none) : fixRR l = l := by
  unfold fixRR
  rw [h]

theorem fixRR_rr (l : Bytes) (hl : ('\r') ∉ l) :
    fixRR (l ++ ['\r', '\r']) = l ++ ['\r'] := by
  have ht : (l ++ ['\r', '\r']).take l.length = l := by simp
  have hd : (l ++ ['\r', '\r']).drop (l.length + 1) = ['\r'] := by
    rw [show l ++ ['\r', '\r'] = (l ++ ['\r']) ++ ['\r'] by simp,
        show l.length + 1 = (l ++ ['\r']).length by simp]
    exact List.drop_left _ _
  unfold fixRR
  rw [findSub_rr_end l hl]
  show (l ++ ['\r', '\r']).take l.length ++ (l ++ ['\r', '\r']).drop (l.length + 1)
      = l ++ ['\r']
  rw [ht, hd]

theorem cleanLine_nocr (l : Bytes) (hl : ('\r') ∉ l) :
    cleanLine l = l ++ crlf := by
  unfold cleanLine
  rw [fixRR_of_none (findSub_rr_none0 l hl)]
  show (if l.contains '\r' = true then l ++ ['\n'] else l ++ crlf) = l ++ crlf
  have hcon : l.contains '\r' = false := by simp [hl]
  rw [if_neg (by rw [hcon]; exact Bool.false_ne_true)]

theorem cleanLine_rr (l : Bytes) (hl : ('\r') ∉ l) :
    cleanLine (l ++ ['\r', '\r']) = l ++ crlf := by
  unfold cleanLine
  rw [fixRR_rr l hl]
  show (if (l ++ ['\r']).contains '\r' = true then (l ++ ['\r']) ++ ['\n']
      else (l ++ ['\r']) ++ crlf) = l ++ crlf
  have hcon : (l ++ ['\r']).contains '\r' = true := by simp
  rw [if_pos hcon]
  simp [crlf]

theorem splitNl_no_nl (s : Bytes) (hs : ('\n') ∉ s) : splitNl s = [s] := by
  induction s with
  | nil => rfl
  | cons c t ih =>
    have hc : ¬ c = '\n' := fun h => hs (h ▸ List.mem_cons_self c t)
    have ih2 := ih (fun hm => hs (List.mem_cons_of_mem c hm))
    simp only [splitNl, if_neg hc, ih2]
    rfl

theorem splitNl_corrupt_step (x b rest : Bytes) (hx : ('\n') ∉ x) (hb : ('\n') ∉ b) :
    splitNl ((x ++ (b ++ ['\n'])) ++ rest) = (x ++ b) :: splitNl rest := by
  have harr : (x ++ (b ++ ['\n'])) ++ rest = (x ++ b) ++ '\n' :: rest := by simp
  rw [harr, splitNl_append_line _ _ (by
    intro hm
    rcases List.mem_append.1 hm with hm | hm
    · exact hx hm
    · exact hb hm)]

theorem splitNl_corrupt (pres : List (Bytes × Bytes)) (tail0 : Bytes)
    (hp : ∀ p ∈ pres, ('\n') ∉ p.1 ∧
      (p.2 = ['\n'] ∨ p.2 = ['\r', '\n'] ∨ p.2 = ['\r', '\r', '\n'])) :
    splitNl (catList (pres.map fun p => p.1 ++ p.2) ++ tail0)
      = (pres.map fun p => p.1 ++ p.2.dropLast) ++ splitNl tail0 := by
  induction pres with
  | nil => simp [catList]
  | cons q qs ih =>
    obtain ⟨hn, ht⟩ := hp q (List.mem_cons_self q qs)
    have ih2 := ih (fun p hm => hp p (List.mem_cons_of_mem q hm))
    have hbody : ∃ b, q.2 = b ++ ['\n'] ∧ ('\n') ∉ b ∧ (b ++ ['\n']).dropLast = b := by
      rcases ht with h2 | h2 | h2 <;> rw [h2]
      · exact ⟨[], rfl, by decide, by simp⟩
      · exact ⟨['\r'], rfl, by decide, by simp⟩
      · exact ⟨['\r', '\r'], rfl, by decide, by simp⟩
    obtain ⟨b, hq2, hbn, hdrop⟩ := hbody
    simp only [List.map_cons, catList, hq2]
    rw [List.append_assoc, splitNl_corrupt_step q.1 b _ hn hbn, ih2, hdrop]
    rfl

theorem dropLastIfEmpty_concat_ne (xs : List Bytes) (y : Bytes) (hy : ¬ y = []) :
    dropLastIfEmpty (xs ++ [y]) = xs ++ [y] := by
  induction xs with
  | nil =>
    show (if y = [] then [] else [y]) = [y]
    rw [if_neg hy]
  | cons x xs ih =>
    cases hx : xs ++ [y] with
    | nil => simp at hx
    | cons w ws =>
      have h1 : dropLastIfEmpty (x :: w :: ws) = x :: dropLastIfEmpty (w :: ws) := rfl
      rw [List.cons_append, hx, h1, ← hx, ih]

theorem cleanLine_seg (l b : Bytes) (hl : ('\r') ∉ l)
    (hb : b = [] ∨ b = ['\r'] ∨ b = ['\r', '\r']) :
    cleanLine (l ++ b) = l ++ crlf := by
  rcases hb with h | h | h <;> subst h
  · rw [List.append_nil]
    exact cleanLine_nocr l hl
  · exact cleanLine_canonical l hl
  · exact cleanLine_rr l hl

theorem map_cleanLine_corrupt (pres : List (Bytes × Bytes))
    (hp : ∀ p ∈ pres, ('\r') ∉ p.1 ∧ ('\n') ∉ p.1 ∧
      (p.2 = ['\n'] ∨ p.2 = ['\r', '\n'] ∨ p.2 = ['\r', '\r', '\n'])) :
    (pres.map fun p => p.1 ++ p.2.dropLast).map cleanLine
      = pres.map fun p => p.1 ++ crlf := by
  induction pres with
  | nil => rfl
  | cons q qs ih =>
    obtain ⟨hr, hn, ht⟩ := hp q (List.mem_cons_self q qs)
    simp only [List.map_cons]
    rw [ih (fun p hm => hp p (List.mem_cons_of_mem q hm))]
    have hb : q.2.dropLast = [] ∨ q.2.dropLast = ['\r'] ∨ q.2.dropLast = ['\r', '\r'] := by
      rcases ht with h | h | h <;> rw [h] <;> simp
    rw [cleanLine_seg q.1 _ hr hb]

theorem cleanUp_corrupt (pres : List (Bytes × Bytes)) (tail0 : Bytes)
    (hp : ∀ p ∈ pres, ('\r') ∉ p.1 ∧ ('\n') ∉ p.1 ∧
      (p.2 = ['\n'] ∨ p.2 = ['\r', '\n'] ∨ p.2 = ['\r', '\r', '\n']))
    (ht : ('\r') ∉ tail0 ∧ ('\n') ∉ tail0) :
    IMMR.CleanUpLineEncoding (catList (pres.map fun p => p.1 ++ p.2) ++ tail0)
      = catList (pres.map fun p => p.1 ++ crlf)
        ++ (if tail0 = [] then [] else tail0 ++ crlf) ++ crlf := by
  unfold IMMR.CleanUpLineEncoding getlines
  rw [splitNl_corrupt pres tail0 (fun p hm => ⟨(hp p hm).2.1, (hp p hm).2.2⟩),
      splitNl_no_nl tail0 ht.2]
  by_cases h0 : tail0 = []
  · subst h0
    rw [dropLastIfEmpty_concat, map_cleanLine_corrupt pres hp, if_pos rfl]
    simp
  · rw [dropLastIfEmpty_concat_ne _ _ h0, List.map_append,
        map_cleanLine_corrupt pres hp, catList_append, if_neg h0]
    simp only [List.map_cons, List.map_nil, catList]
    rw [cleanLine_nocr tail0 ht.1]
    simp [List.append_assoc]

/-- C7 counterexample: the line-ending repair is not idempotent — already on
the empty input, one application yields `"\r\n"` and a second application
yields `"\r\n\r\n"`, because the transform unconditionally appends a
trailing `"\r\n"` even when one is already present. -/

theorem cleanUp_not_idempotent_counterexample :
    IMMR.CleanUpLineEncoding (IMMR.CleanUpLineEncoding []) ≠ IMMR.CleanUpLineEncoding [] := by
  decide

/-- C7 (amended): on input made of carriage-return-free lines each terminated
by one of the vendor patterns `"\n"` (missing carriage return), `"\r\n"`
(canonical) or `"\r\r\n"` (doubled carriage return), with a possibly
unterminated final line, one application of the repair terminates every line
with the canonical `"\r\n"` and appends a trailing terminator at
end-of-file even when the input had none; the transform is not idempotent —
a second application appends one further `"\r\n"`. -/

theorem cleanUp_canonical_spec (pres : List (Bytes × Bytes)) (tail0 : Bytes)
    (hp : ∀ p ∈ pres, ('\r') ∉ p.1 ∧ ('\n') ∉ p.1 ∧
      (p.2 = ['\n'] ∨ p.2 = ['\r', '\n'] ∨ p.2 = ['\r', '\r', '\n']))
    (ht : ('\r') ∉ tail0 ∧ ('\n') ∉ tail0) :
    IMMR.CleanUpLineEncoding (catList (pres.map fun p => p.1 ++ p.2) ++ tail0)
      = catList (pres.map fun p => p.1 ++ crlf)
        ++ (if tail0 = [] then [] else tail0 ++ crlf) ++ crlf ∧
    IMMR.CleanUpLineEncoding
        (IMMR.CleanUpLineEncoding (catList (pres.map fun p => p.1 ++ p.2) ++ tail0))
      = IMMR.CleanUpLineEncoding (catList (pres.map fun p => p.1 ++ p.2) ++ tail0) ++ crlf ∧
    IMMR.CleanUpLineEncoding
        (IMMR.CleanUpLineEncoding (catList (pres.map fun p => p.1 ++ p.2) ++ tail0))
      ≠ IMMR.CleanUpLineEncoding (catList (pres.map fun p => p.1 ++ p.2) ++ tail0) := by
  have h1 := cleanUp_corrupt pres tail0 hp ht
  have hform : catList (((pres.map Prod.fst)
      ++ (if tail0 = [] then [] else [tail0]) ++ [[]]).map (· ++ crlf))
      = catList (pres.map fun p => p.1 ++ crlf)
        ++ (if tail0 = [] then [] else tail0 ++ crlf) ++ crlf := by
    rw [List.map_append, List.map_append, catList_append, catList_append, List.map_map]
    congr 1
    congr 1
    by_cases h0 : tail0 = [] <;> simp [h0, catList]
  have hl2 : ∀ l ∈ (pres.map Prod.fst)
      ++ (if tail0 = [] then [] else [tail0]) ++ [[]], ('\r') ∉ l ∧ ('\n') ∉ l := by
    intro l hm
    rcases List.mem_append.1 hm with hm | hm
    · rcases List.mem_append.1 hm with hm | hm
      · obtain ⟨p, hpm, rfl⟩ := List.mem_map.1 hm
        exact ⟨(hp p hpm).1, (hp p hpm).2.1⟩
      · by_cases h0 : tail0 = []
        · rw [if_pos h0] at hm
          simp at hm
        · rw [if_neg h0] at hm
          simp only [List.mem_singleton] at hm
          subst hm
          exact ht
    · simp only [List.mem_singleton] at hm
      subst hm
      simp
  have h2 := cleanUp_canonical_aux _ hl2
  refine ⟨h1, ?_, ?_⟩
  · rw [h1, ← hform]
    exact h2
  · rw [h1, ← hform, h2]
    intro heq
    have := congrArg List.length heq
    simp [crlf] at this

/-- Witness for C7's amended theorem at a concrete corrupted input: a
missing-CR line, a doubled-CR line, a canonical line and an unterminated
final line. -/

theorem cleanUp_canonical_spec_witness :
    IMMR.CleanUpLineEncoding (catList ((([(['a'], ['\n']), (['b'], ['\r', '\r', '\n']),
        (['c'], ['\r', '\n'])] : List (Bytes × Bytes)).map fun p => p.1 ++ p.2)) ++ ['d'])
      = catList ((([(['a'], ['\n']), (['b'], ['\r', '\r', '\n']),
          (['c'], ['\r', '\n'])] : List (Bytes × Bytes)).map fun p => p.1 ++ crlf))
        ++ (if (['d'] : Bytes) = [] then [] else ['d'] ++ crlf) ++ crlf ∧
    IMMR.CleanUpLineEncoding (IMMR.CleanUpLineEncoding
        (catList ((([(['a'], ['\n']), (['b'], ['\r', '\r', '\n']),
          (['c'], ['\r', '\n'])] : List (Bytes × Bytes)).map fun p => p.1 ++ p.2)) ++ ['d']))
      = IMMR.CleanUpLineEncoding (catList ((([(['a'], ['\n']), (['b'], ['\r', '\r', '\n']),
          (['c'], ['\r', '\n'])] : List (Bytes × Bytes)).map fun p => p.1 ++ p.2)) ++ ['d'])
        ++ crlf ∧
    IMMR.CleanUpLineEncoding (IMMR.CleanUpLineEncoding
        (catList ((([(['a'], ['\n']), (['b'], ['\r', '\r', '\n']),
          (['c'], ['\r', '\n'])] : List (Bytes × Bytes)).map fun p => p.1 ++ p.2)) ++ ['d']))
      ≠ IMMR.CleanUpLineEncoding (catList ((([(['a'], ['\n']), (['b'], ['\r', '\r', '\n']),
          (['c'], ['\r', '\n'])] : List (Bytes × Bytes)).map fun p => p.1 ++ p.2)) ++ ['d']) :=
  cleanUp_canonical_spec
    [(['a'], ['\n']), (['b'], ['\r', '\r', '\n']), (['c'], ['\r', '\n'])]
    ['d'] (by decide) (by decide)

theorem starts_splitNl_head (t : Bytes) (hn : ('\n') ∉ t) :
    ∀ u : Bytes, (∃ b, u = t ++ b) → ∃ b2, (splitNl u).headI = t ++ b2 := by
  induction t with
  | nil => intro u _; exact ⟨(splitNl u).headI, rfl⟩
  | cons t0 t' ih =>
    rintro u ⟨b, rfl⟩
    have ht0 : ¬ t0 = '\n' := fun h => hn (h ▸ List.mem_cons_self t0 t')
    obtain ⟨b2, hb2⟩ := ih (fun hm => hn (List.mem_cons_of_mem t0 hm)) (t' ++ b) ⟨b, rfl⟩
    refine ⟨b2, ?_⟩
    have hstep : splitNl ((t0 :: t') ++ b)
        = (t0 :: (splitNl (t' ++ b)).headI) :: (splitNl (t' ++ b)).tail := by
      rw [List.cons_append]
      simp only [splitNl]
      rw [if_neg ht0]
    rw [hstep, List.headI_cons, hb2]
    rfl

theorem occurs_splitNl {t : Bytes} (ht : t ≠ []) (hn : ('\n') ∉ t) :
    ∀ u : Bytes, Occurs t u → ∃ l ∈ splitNl u, Occurs t l := by
  intro u h
  induction u with
  | nil =>
    obtain ⟨a, b, hab⟩ := h
    have h2 := hab.symm
    rw [List.append_assoc] at h2
    obtain ⟨-, h3⟩ := List.append_eq_nil.1 h2
    exact absurd (List.append_eq_nil.1 h3).1 ht
  | cons c u ih =>
    obtain ⟨a, b, hab⟩ := h
    cases a with
    | nil =>
      simp only [List.nil_append] at hab
      obtain ⟨b2, hb2⟩ := starts_splitNl_head t hn (c :: u) ⟨b, hab⟩
      refine ⟨(splitNl (c :: u)).headI, ?_, ⟨[], b2, by simpa using hb2⟩⟩
      cases hsp : splitNl (c :: u) with
      | nil => exact absurd hsp (splitNl_ne_nil (c :: u))
      | cons hd tl => simp [List.headI]
    | cons a0 a' =>
      simp only [List.cons_append, List.cons.injEq] at hab
      obtain ⟨rfl, hu⟩ := hab
      obtain ⟨l, hlmem, hocc⟩ := ih ⟨a', b, by simpa using hu⟩
      by_cases hc : c = '\n'
      · refine ⟨l, ?_, hocc⟩
        subst hc
        have hstep : splitNl ('\n' :: u) = [] :: splitNl u := by
          simp [splitNl]
        rw [hstep]
        exact List.mem_cons_of_mem [] hlmem
      · have hstep : splitNl (c :: u)
            = (c :: (splitNl u).headI) :: (splitNl u).tail := by
          simp only [splitNl]
          rw [if_neg hc]
        cases hsp : splitNl u with
        | nil => exact absurd hsp (splitNl_ne_nil u)
        | cons hd tl =>
          rw [hsp] at hstep hlmem
          rcases List.mem_cons.1 hlmem with rfl | hmem
          · refine ⟨c :: l, ?_, hocc.append_left [c]⟩
            rw [hstep]
            simp
          · refine ⟨l, ?_, hocc⟩
            rw [hstep]
            simp only [List.headI_cons, List.tail_cons]
            exact List.mem_cons_of_mem _ hmem

theorem mem_dropLastIfEmpty {l : Bytes} :
    ∀ {xs : List Bytes}, l ∈ xs → l ≠ [] → l ∈ dropLastIfEmpty xs := by
  intro xs
  induction xs with
  | nil => intro h _; cases h
  | cons x ys ih =>
    intro hmem hl
    cases ys with
    | nil =>
      simp only [List.mem_singleton] at hmem
      subst hmem
      simp only [dropLastIfEmpty, if_neg hl]
      exact List.mem_singleton_self l
    | cons y ys2 =>
      have hred : dropLastIfEmpty (x :: y :: ys2) = x :: dropLastIfEmpty (y :: ys2) := rfl
      rw [hred]
      rcases List.mem_cons.1 hmem with rfl | hmem
      · exact List.mem_cons_self _ _
      · exact List.mem_cons_of_mem x (ih hmem hl)

theorem occurs_fixRR {t l : Bytes} (h : Occurs t l) (hrt : ('\r') ∉ t) :
    Occurs t (fixRR l) := by
  unfold fixRR
  cases hrr : findSub l ['\r', '\r'] with
  | none => exact h
  | some i =>
    show Occurs t (l.take i ++ l.drop (i + 1))
    obtain ⟨a, b, hab⟩ := h
    have hdec : l = l.take i ++ ['\r', '\r'] ++ l.drop (i + 2) := by
      simpa using findSub_some l ['\r', '\r'] i hrr
    have hlen : i + 2 ≤ l.length := by
      have hL := congrArg List.length hdec
      simp only [List.length_append, List.length_take, List.length_cons,
        List.length_nil, List.length_drop] at hL
      omega
    have htl : (l.take i).length = i := by
      simp only [List.length_take]
      omega
    have hdrop : l.drop i = '\r' :: '\r' :: l.drop (i + 2) := by
      conv_lhs => rw [hdec]
      rw [List.append_assoc, List.drop_append_eq_append_drop,
        List.drop_of_length_le (le_of_eq htl), htl, List.nil_append, Nat.sub_self,
        List.drop_zero]
      rfl
    have havoid : i < a.length ∨ a.length + t.length ≤ i := by
      by_contra hcon
      push_neg at hcon
      obtain ⟨h1, h2⟩ := hcon
      have hsplit : l.drop i = t.drop (i - a.length) ++ b := by
        rw [hab, List.append_assoc, List.drop_append_eq_append_drop,
          List.drop_of_length_le (by omega), List.nil_append,
          List.drop_append_eq_append_drop]
        have hz : i - a.length - t.length = 0 := by omega
        rw [hz, List.drop_zero]
      rw [hdrop] at hsplit
      cases htd : t.drop (i - a.length) with
      | nil =>
        have hL := congrArg List.length htd
        simp only [List.length_drop, List.length_nil] at hL
        omega
      | cons x xs =>
        rw [htd] at hsplit
        have hx : x = '\r' := by
          have := congrArg List.headI hsplit
          simpa using this.symm
        apply hrt
        rw [← hx]
        exact List.mem_of_mem_drop (htd ▸ List.mem_cons_self x xs)
    rcases havoid with hlt | hge
    · refine ⟨a.take i ++ a.drop (i + 1), b, ?_⟩
      conv_lhs => rw [hab]
      rw [List.append_assoc, List.take_append_eq_append_take]
      have hz : i - a.length = 0 := by omega
      rw [hz, List.take_zero, List.append_nil]
      rw [List.drop_append_eq_append_drop]
      have hz2 : i + 1 - a.length = 0 := by omega
      rw [hz2, List.drop_zero]
      simp [List.append_assoc]
    · refine ⟨a, b.take (i - a.length - t.length) ++ b.drop (i + 1 - a.length - t.length), ?_⟩
      conv_lhs => rw [hab]
      rw [List.append_assoc, List.take_append_eq_append_take,
        List.take_of_length_le (by omega), List.take_append_eq_append_take,
        List.take_of_length_le (by omega)]
      rw [List.append_assoc, List.drop_append_eq_append_drop,
        List.drop_of_length_le (by omega), List.nil_append,
        List.drop_append_eq_append_drop, List.drop_of_length_le (by omega),
        List.nil_append]
      simp [List.append_assoc]

theorem occurs_cleanLine {t l : Bytes} (h : Occurs t l) (hrt : ('\r') ∉ t) :
    Occurs t (cleanLine l) := by
  have hfix := occurs_fixRR h hrt
  show Occurs t (if (fixRR l).contains '\r' = true then fixRR l ++ ['\n'] else fixRR l ++ crlf)
  by_cases hc : (fixRR l).contains '\r' = true
  · rw [if_pos hc]
    exact hfix.append_right ['\n']
  · rw [if_neg hc]
    exact hfix.append_right crlf

theorem occurs_catList {t l : Bytes} :
    ∀ {ls : List Bytes}, l ∈ ls → Occurs t l → Occurs t (catList ls) := by
  intro ls
  induction ls with
  | nil => intro h _; cases h
  | cons x xs ih =>
    intro hmem hocc
    rcases List.mem_cons.1 hmem with rfl | hmem
    · exact hocc.append_right (catList xs)
    · exact (ih hmem hocc).append_left x

theorem occurs_cleanUp {t u : Bytes} (ht : t ≠ []) (hrt : ('\r') ∉ t)
    (hnt : ('\n') ∉ t) (h : Occurs t u) :
    Occurs t (IMMR.CleanUpLineEncoding u) := by
  obtain ⟨l, hlmem, hocc⟩ := occurs_splitNl ht hnt u h
  have hlne : l ≠ [] := by
    obtain ⟨a, b, rfl⟩ := hocc
    intro hc
    have h2 := hc.symm
    rw [List.append_assoc] at h2
    obtain ⟨-, h3⟩ := List.append_eq_nil.1 h2.symm
    exact absurd (List.append_eq_nil.1 h3).1 ht
  have hmem2 : l ∈ getlines u := mem_dropLastIfEmpty hlmem hlne
  have hclean : cleanLine l ∈ (getlines u).map cleanLine := List.mem_map_of_mem cleanLine hmem2
  exact (occurs_catList hclean (occurs_cleanLine hocc hrt)).append_right crlf

theorem mem_lastComponent {x : Char} {p : Bytes} (h : x ∈ lastComponent p) : x ∈ p := by
  unfold lastComponent at h
  rw [List.mem_reverse] at h
  have h2 := List.takeWhile_subset _ h
  rwa [List.mem_reverse] at h2

/-- C6 counterexample: on a header file whose text does not contain the
`"name of data file"` label, the claim says `ModifyHeader` logs and proceeds
as a no-op; in fact `find` yields `npos` and the following
`substr(pos, ...)` raises an uncaught `std::out_of_range` (the `none`
result), so the call neither proceeds nor returns. -/

theorem immrModifyHeader_missing_label_counterexample :
    hasSub (("x:=1\r\n").toList) nameOfDataFileLabel = false ∧
    IMMR.ModifyHeader [(['h'], ("x:=1\r\n").toList)] ['h'] ['d'] true = none := by
  constructor
  · decide
  · decide

/-- C6 (amended): when the `"name of data file"` label is absent from the
header text, `IMMR::ModifyHeader` raises an uncaught `out_of_range` fault
(it neither logs nor proceeds); when the label is found, the call succeeds,
rewriting the header in place so that the written text contains the line
`"name of data file:=" + filename(dataFile)` — referencing only the
filename portion of the new data-file path. -/

theorem immrModifyHeader_spec (fs : Fs) (src dataFile h : Bytes)
    (hsrc : lookupFs fs src = some h)
    (hdr : ('\r') ∉ dataFile) (hdn : ('\n') ∉ dataFile) :
    (findSub h nameOfDataFileLabel = none → IMMR.ModifyHeader fs src dataFile true = none) ∧
    (∀ pos, findSub h nameOfDataFileLabel = some pos →
      ∃ s, IMMR.ModifyHeader fs src dataFile true = some (true, insertFs fs src s) ∧
        Occurs (nameOfDataFileLabel ++ [':', '='] ++ lastComponent dataFile) s) := by
  constructor
  · intro hfind
    unfold IMMR.ModifyHeader immrModifyString
    simp [hsrc, hfind]
  · intro pos hfind
    refine ⟨IMMR.CleanUpLineEncoding
        (h.take pos ++ (nameOfDataFileLabel ++ [':', '='] ++ lastComponent dataFile)
          ++ h.drop (pos + (takeLineNR (h.drop pos)).length)), ?_, ?_⟩
    · unfold IMMR.ModifyHeader immrModifyString
      simp [hsrc, hfind]
    · apply occurs_cleanUp
      · have hne : nameOfDataFileLabel ++ [':', '='] ≠ [] := by decide
        intro hc
        exact hne (List.append_eq_nil.1 hc).1
      · intro hm
        rcases List.mem_append.1 hm with hm | hm
        · exact absurd hm (by decide)
        · exact hdr (mem_lastComponent hm)
      · intro hm
        rcases List.mem_append.1 hm with hm | hm
        · exact absurd hm (by decide)
        · exact hdn (mem_lastComponent hm)
      · exact ⟨h.take pos, h.drop (pos + (takeLineNR (h.drop pos)).length), rfl⟩

/-- Witness for C6's amended theorem at a concrete header containing the
label (the label starts at offset 12). -/

theorem immrModifyHeader_spec_witness :
    ∃ s, IMMR.ModifyHeader
        [(['h'], ("!INTERFILE\r\nname of data file:=old.l\r\n").toList)]
        ['h'] (("dir/new.l").toList) true
        = some (true,
            insertFs [(['h'], ("!INTERFILE\r\nname of data file:=old.l\r\n").toList)] ['h'] s) ∧
      Occurs (nameOfDataFileLabel ++ [':', '='] ++ lastComponent (("dir/new.l").toList)) s :=
  (immrModifyHeader_spec
      [(['h'], ("!INTERFILE\r\nname of data file:=old.l\r\n").toList)]
      ['h'] (("dir/new.l").toList) (("!INTERFILE\r\nname of data file:=old.l\r\n").toList)
      (by decide) (by decide) (by decide)).2 12 (by decide)

/-- C10: `MMRNorm::ModifyHeader` discards the boolean result of the
base-class `IMMR::ModifyHeader` call it makes after rewriting the
`"%data set [1]:="` descriptor line: whenever its own rewrite of the
descriptor succeeds and the base call returns `(b, fs2)`, the method
returns `true` with state `fs2` regardless of `b`; in particular with the
base call's stream open failing (`o2 = false`), the method still reports
success while the `"name of data file"` line was never updated (the final
state is exactly the one written by the descriptor rewrite alone). -/

theorem mmrNormModifyHeader_discard_spec (fs : Fs) (src dataFile h h2 : Bytes)
    (hsrc : lookupFs fs src = some h)
    (hds : normModifyString h dataFile = some h2) :
    (∀ o2 b fs2,
      IMMR.ModifyHeader (insertFs fs src (IMMR.CleanUpLineEncoding h2)) src dataFile o2
        = some (b, fs2) →
      MMRNorm.ModifyHeader fs src dataFile true o2 = some (true, fs2)) ∧
    (hasSub (IMMR.CleanUpLineEncoding h2) nameOfDataFileLabel = true →
      MMRNorm.ModifyHeader fs src dataFile true false
        = some (true, insertFs fs src (IMMR.CleanUpLineEncoding h2))) := by
  have hmain : ∀ o2 b fs2,
      IMMR.ModifyHeader (insertFs fs src (IMMR.CleanUpLineEncoding h2)) src dataFile o2
        = some (b, fs2) →
      MMRNorm.ModifyHeader fs src dataFile true o2 = some (true, fs2) := by
    intro o2 b fs2 hbase
    unfold MMRNorm.ModifyHeader
    simp [hsrc, hds, hbase]
  refine ⟨hmain, ?_⟩
  intro hlab
  obtain ⟨pos, hpos⟩ :
      ∃ pos, findSub (IMMR.CleanUpLineEncoding h2) nameOfDataFileLabel = some pos := by
    simpa [hasSub, Option.isSome_iff_exists] using hlab
  apply hmain false false
  unfold IMMR.ModifyHeader immrModifyString
  simp [lookupFs_insert, hpos]

/-- Witness for C10 at a concrete norm header: the base-class write fails
(`o2 = false`), yet the method reports success and the header on disk keeps
`"name of data file:=old.n"` (only the descriptor line was rewritten). -/

theorem mmrNormModifyHeader_discard_spec_witness :
    MMRNorm.ModifyHeader
        [(['n'], ("!INTERFILE\r\nname of data file:=old.n\r\n%data set [1]:=\x7b0,,old.n\x7d\r\n").toList)]
        ['n'] (("new.n").toList) true false
      = some (true,
          insertFs
            [(['n'], ("!INTERFILE\r\nname of data file:=old.n\r\n%data set [1]:=\x7b0,,old.n\x7d\r\n").toList)]
            ['n']
            (IMMR.CleanUpLineEncoding
              (("!INTERFILE\r\nname of data file:=old.n\r\n%data set [1]:=\x7b0,,new.n\x7d\r\n").toList))) :=
  (mmrNormModifyHeader_discard_spec
      [(['n'], ("!INTERFILE\r\nname of data file:=old.n\r\n%data set [1]:=\x7b0,,old.n\x7d\r\n").toList)]
      ['n'] (("new.n").toList)
      (("!INTERFILE\r\nname of data file:=old.n\r\n%data set [1]:=\x7b0,,old.n\x7d\r\n").toList)
      (("!INTERFILE\r\nname of data file:=old.n\r\n%data set [1]:=\x7b0,,new.n\x7d\r\n").toList)
      (by decide) (by decide)).2 (by decide)

theorem dicmAt_le {f : Bytes} {c : Nat} (h : dicmAt f c = true) : c + 4 ≤ f.length := by
  simpa [dicmAt] using (of_decide_eq_true h).1

theorem dicmAt_false_of_lt (f : Bytes) (c : Nat) (h : f.length < c + 4) :
    dicmAt f c = false := by
  simp only [dicmAt, decide_eq_false_iff_not]
  rintro ⟨h1, -⟩
  omega

theorem scanAux_none_iff (f : Bytes) :
    ∀ (fuel c : Nat), fuel ≤ c →
      (scanAux f c fuel = none ↔ ∀ j, c - fuel < j → j ≤ c → dicmAt f j = false) := by
  intro fuel
  induction fuel with
  | zero =>
    intro c _
    simp only [scanAux, Nat.sub_zero, true_iff]
    intro j h1 h2
    omega
  | succ fuel ih =>
    intro c hc
    cases c with
    | zero => omega
    | succ c2 =>
      have hred : scanAux f (c2 + 1) (fuel + 1)
          = if dicmAt f (c2 + 1) then some (c2 + 1) else scanAux f c2 fuel := by
        simp only [scanAux]
      rw [hred]
      by_cases hd : dicmAt f (c2 + 1) = true
      · rw [if_pos hd]
        constructor
        · intro hcontr; cases hcontr
        · intro hall
          exact absurd (hall (c2 + 1) (by omega) (by omega)) (by simp [hd])
      · rw [if_neg hd]
        rw [ih c2 (by omega)]
        constructor
        · intro hall j h1 h2
          by_cases hj : j ≤ c2
          · exact hall j (by omega) hj
          · have : j = c2 + 1 := by omega
            subst this
            simpa using hd
        · intro hall j h1 h2
          exact hall j (by omega) (by omega)

theorem scanAux_some_iff (f : Bytes) :
    ∀ (fuel c r : Nat), fuel ≤ c →
      (scanAux f c fuel = some r ↔
        (dicmAt f r = true ∧ c - fuel < r ∧ r ≤ c ∧
          ∀ j, r < j → j ≤ c → dicmAt f j = false)) := by
  intro fuel
  induction fuel with
  | zero =>
    intro c r _
    simp only [scanAux, Nat.sub_zero]
    constructor
    · intro hcontr; cases hcontr
    · rintro ⟨-, h2, h3, -⟩; omega
  | succ fuel ih =>
    intro c r hc
    cases c with
    | zero => omega
    | succ c2 =>
      have hred : scanAux f (c2 + 1) (fuel + 1)
          = if dicmAt f (c2 + 1) then some (c2 + 1) else scanAux f c2 fuel := by
        simp only [scanAux]
      rw [hred]
      by_cases hd : dicmAt f (c2 + 1) = true
      · rw [if_pos hd]
        constructor
        · intro hsome
          obtain rfl : r = c2 + 1 := by simpa using hsome.symm
          refine ⟨hd, by omega, by omega, ?_⟩
          intro j h1 h2
          omega
        · rintro ⟨h1, h2, h3, h4⟩
          by_cases hr : r = c2 + 1
          · rw [hr]
          · exact absurd (h4 (c2 + 1) (by omega) (by omega)) (by simp [hd])
      · rw [if_neg hd]
        rw [ih c2 r (by omega)]
        constructor
        · rintro ⟨h1, h2, h3, h4⟩
          refine ⟨h1, by omega, by omega, ?_⟩
          intro j hj1 hj2
          by_cases hj : j ≤ c2
          · exact h4 j hj1 hj
          · have : j = c2 + 1 := by omega
            subst this
            simpa using hd
        · rintro ⟨h1, h2, h3, h4⟩
          have hr : r ≤ c2 := by
            by_contra hr2
            have : r = c2 + 1 := by omega
            subst this
            simp [h1] at hd
          exact ⟨h1, by omega, hr, fun j hj1 hj2 => h4 j hj1 (by omega)⟩

theorem scanBackDICM_iff (f : Bytes) (hbig : 50000 ≤ f.length) (c : Nat) :
    scanBackDICM f = some c ↔
      (dicmAt f c = true ∧ f.length - 50000 < c ∧ ∀ j, c < j → dicmAt f j = false) := by
  unfold scanBackDICM
  rw [scanAux_some_iff f 50000 f.length c hbig]
  constructor
  · rintro ⟨h1, h2, h3, h4⟩
    refine ⟨h1, h2, ?_⟩
    intro j hj
    by_cases hle : j ≤ f.length
    · exact h4 j hj hle
    · exact dicmAt_false_of_lt f j (by omega)
  · rintro ⟨h1, h2, h3⟩
    have hle : c + 4 ≤ f.length := dicmAt_le h1
    exact ⟨h1, h2, by omega, fun j hj _ => h3 j hj⟩

theorem scanBackDICM_none (f : Bytes) (hbig : 50000 ≤ f.length) :
    scanBackDICM f = none ↔
      ∀ j, f.length - 50000 < j → dicmAt f j = false := by
  unfold scanBackDICM
  rw [scanAux_none_iff f 50000 f.length hbig]
  constructor
  · intro hall j h1
    by_cases hle : j ≤ f.length
    · exact hall j h1 hle
    · exact dicmAt_false_of_lt f j (by omega)
  · intro hall j h1 _
    exact hall j h1

theorem ptdNumericCheck_good_iff (c n : Nat) (hc : 128 ≤ c) (hcb : c < 2 ^ 63) :
    (ptdNumericCheck c n = .EGOOD ↔
      (n < 2 ^ 64 ∧ (c - 128) % 4 = 0 ∧ (c - 128) / 4 = n)) := by
  unfold ptdNumericCheck
  by_cases hn64 : 2 ^ 64 ≤ n
  · rw [if_pos hn64]
    constructor
    · intro hx; exact PTDStatus.noConfusion hx
    · rintro ⟨h, -⟩; omega
  · rw [if_neg hn64]
    by_cases hm : ¬ ((c : Int) - 128) % 4 = 0
    · rw [if_pos hm]
      constructor
      · intro hx; exact PTDStatus.noConfusion hx
      · rintro ⟨-, hmod, -⟩; exact absurd (by omega) hm
    · rw [if_neg hm]
      push_neg at hm
      by_cases he : (((c : Int) - 128) / 4) % (2 ^ 64) = (n : Int)
      · rw [if_pos he]
        constructor
        · intro _; exact ⟨by omega, by omega, by omega⟩
        · intro _; rfl
      · rw [if_neg he]
        constructor
        · intro hx; exact PTDStatus.noConfusion hx
        · rintro ⟨h64, hmod, hdiv⟩; exact absurd (by omega) he

theorem declared_implies_marks (hdr : Bytes) (n : Nat)
    (h : declaredWordCountPTD hdr = some n) :
    hasSub hdr interfileMark = true ∧ hasSub hdr commentMark = true := by
  unfold declaredWordCountPTD ptdParseHeader at h
  cases h1 : findSub hdr interfileMark with
  | none => rw [h1] at h; simp at h
  | some inPoint =>
    cases h2 : findSub hdr commentMark with
    | none => rw [h1, h2] at h; simp at h
    | some cpos => simp [hasSub, h1, h2]

theorem ptdCheckHeader_good_iff (c : Nat) (hdr : Bytes) (hc : 128 ≤ c) (hcb : c < 2 ^ 63) :
    (ptdCheckHeader c hdr = .EGOOD ↔
      ∃ n, declaredWordCountPTD hdr = some n ∧ n < 2 ^ 64 ∧
        (c - 128) % 4 = 0 ∧ (c - 128) / 4 = n) := by
  unfold ptdCheckHeader declaredWordCountPTD
  cases hp : ptdParseHeader hdr with
  | bad =>
    constructor
    · intro hx; exact PTDStatus.noConfusion hx
    · rintro ⟨n, hn, -⟩; exact Option.noConfusion hn
  | exn =>
    constructor
    · intro hx; exact PTDStatus.noConfusion hx
    · rintro ⟨n, hn, -⟩; exact Option.noConfusion hn
  | count n =>
    show ptdNumericCheck c n = .EGOOD ↔
      ∃ m, some n = some m ∧ m < 2 ^ 64 ∧ (c - 128) % 4 = 0 ∧ (c - 128) / 4 = m
    rw [ptdNumericCheck_good_iff c n hc hcb]
    constructor
    · rintro ⟨h1, h2, h3⟩; exact ⟨n, rfl, h1, h2, h3⟩
    · rintro ⟨m, hm, h1, h2, h3⟩
      obtain rfl : n = m := by simpa using hm
      exact ⟨h1, h2, h3⟩

/-- C2: for a large enough PTD file (at least 50128 bytes; C file sizes are
below `2 ^ 63`), `ReadAsSiemensPTD` reports good iff the `"DICM"` marker is
found by the backward scan (at offset `c`, necessarily the highest
occurrence within the last 50000 seek positions), the extracted tail
contains the `"!INTERFILE"` start sentinel and the `"%comment"` terminating
field, the header parse yields a declared word count `n` (below the
`unsigned long` bound), `c - 128` is divisible by 4, and `(c - 128) / 4`
equals `n`; moreover when the marker is not within the scan bound — even if
it occurs earlier in the file — the result is `EBAD` (the whole file is
never scanned). -/

theorem readAsSiemensPTD_spec (f : Bytes) (hbig : 50128 ≤ f.length)
    (hsz : f.length < 2 ^ 63) :
    (ReadAsSiemensPTD f = .EGOOD ↔
      ∃ c n, scanBackDICM f = some c ∧
        hasSub (ptdTail f c) interfileMark = true ∧
        hasSub (ptdTail f c) commentMark = true ∧
        declaredWordCountPTD (ptdTail f c) = some n ∧ n < 2 ^ 64 ∧
        (c - 128) % 4 = 0 ∧ (c - 128) / 4 = n) ∧
    (∀ c, scanBackDICM f = some c ↔
      (dicmAt f c = true ∧ f.length - 50000 < c ∧ ∀ j, c < j → dicmAt f j = false)) ∧
    (scanBackDICM f = none → ReadAsSiemensPTD f = .EBAD) := by
  refine ⟨?_, fun c => scanBackDICM_iff f (by omega) c, ?_⟩
  · constructor
    · intro hg
      unfold ReadAsSiemensPTD at hg
      cases hs : scanBackDICM f with
      | none => rw [hs] at hg; exact PTDStatus.noConfusion hg
      | some c =>
        rw [hs] at hg
        have hg2 : ptdCheckHeader c (ptdTail f c) = .EGOOD := hg
        have hwin := (scanBackDICM_iff f (by omega) c).1 hs
        have hc128 : 128 ≤ c := by omega
        have hcb : c < 2 ^ 63 := by
          have hle := dicmAt_le hwin.1
          omega
        obtain ⟨n, hn, h64, hm, hd⟩ := (ptdCheckHeader_good_iff c (ptdTail f c) hc128 hcb).1 hg2
        obtain ⟨hi, hcm⟩ := declared_implies_marks _ n hn
        exact ⟨c, n, rfl, hi, hcm, hn, h64, hm, hd⟩
    · rintro ⟨c, n, hs, -, -, hn, h64, hm, hd⟩
      unfold ReadAsSiemensPTD
      rw [hs]
      show ptdCheckHeader c (ptdTail f c) = .EGOOD
      have hwin := (scanBackDICM_iff f (by omega) c).1 hs
      have hc128 : 128 ≤ c := by omega
      have hcb : c < 2 ^ 63 := by
        have hle := dicmAt_le hwin.1
        omega
      exact (ptdCheckHeader_good_iff c (ptdTail f c) hc128 hcb).2 ⟨n, hn, h64, hm, hd⟩
  · intro hnone
    unfold ReadAsSiemensPTD
    rw [hnone]

/-- Witness for C2 at a concrete file large enough for the scan window. -/
theorem readAsSiemensPTD_spec_witness :
    (ReadAsSiemensPTD ptdWitnessFile = .EGOOD ↔
      ∃ c n, scanBackDICM ptdWitnessFile = some c ∧
        hasSub (ptdTail ptdWitnessFile c) interfileMark = true ∧
        hasSub (ptdTail ptdWitnessFile c) commentMark = true ∧
        declaredWordCountPTD (ptdTail ptdWitnessFile c) = some n ∧ n < 2 ^ 64 ∧
        (c - 128) % 4 = 0 ∧ (c - 128) / 4 = n) ∧
    (∀ c, scanBackDICM ptdWitnessFile = some c ↔
      (dicmAt ptdWitnessFile c = true ∧ ptdWitnessFile.length - 50000 < c ∧
        ∀ j, c < j → dicmAt ptdWitnessFile j = false)) ∧
    (scanBackDICM ptdWitnessFile = none → ReadAsSiemensPTD ptdWitnessFile = .EBAD) :=
  readAsSiemensPTD_spec ptdWitnessFile
    (by simp only [ptdWitnessFile, List.length_replicate]; norm_num)
    (by simp only [ptdWitnessFile, List.length_replicate]; norm_num)

end PetRdTools

